import Mathlib

/-!
Verification development for the `rkui` Kafka reader engine.

This file shallowly embeds the Rust sources under `src/` into Lean:

* `src/kafka/mod.rs`       — engine facade (`Kafka`), config, `decode`,
                             `ensure_assigned`, `apply_filters_mut`, `consume_next`
* `src/kafka/reader/mod.rs`— `consume_sequential`, `consume_merge`
* `src/proto_decoder/mod.rs` — `ProtoDecoder::decode` payload views
* `src/kafka_adapter.rs`   — `eval_jq_bool`, `json_path_get`, `start_filtered_load`

Conventions of the embedding:

* Rust `i64` values (offsets, watermarks, millisecond timestamps) are `Int`;
  `i64::MAX` is the explicit constant `i64Max`.  No arithmetic in the modelled
  code paths can overflow an `i64` given in-range inputs, so `Int` is exact.
* `HashMap` snapshots are association lists, `HashSet` is a duplicate-free
  list, `VecDeque` is a list with the front at the head.
* The blocking poll source is a finite trace `List PollItem`; an exhausted
  trace stands for a source that keeps returning `None` (idle), which in the
  Rust loops only increments the idle counter until the idle budget breaks
  the loop without touching any other state.
* External library calls (rdkafka consumer construction, chrono RFC-3339
  rendering, UTF-8 lossy decoding, the protobuf message parser, serde_json
  string parsing) are parameters of the embedded functions.
* The Rust `BinaryHeap` is modelled as a list of entries whose pop returns
  the extremal entry; all pushed keys contain the `(partition, offset)` pair,
  which is unique per record, so the pop is deterministic and the model is
  insensitive to push order exactly like the heap.
-/

/-! ## Basic data model (src/kafka/mod.rs) -/

abbrev Bytes := List Nat

/-- `i64::MAX`, the sentinel used for missing timestamps and missing
window ends. -/
def i64Max : Int := 9223372036854775807

/-- `rdkafka::message::Timestamp`. -/
inductive KTimestamp where
  | notAvailable
  | createTime (ms : Int)
  | logAppendTime (ms : Int)
  deriving DecidableEq, Repr

/-- A raw record as delivered by `poll` (`BorrowedMessage` projections used
by the readers). -/
structure RawRecord where
  partition : Int
  offset : Int
  key : Option Bytes
  payload : Option Bytes
  timestamp : KTimestamp
  deriving DecidableEq, Repr

/-- One result of `consumer.poll(timeout)`: `None`, `Some(Err(_))` or
`Some(Ok(m))`.  All loops in the source treat the first two identically. -/
inductive PollItem where
  | idle
  | errItem
  | msg (r : RawRecord)
  deriving DecidableEq, Repr

/-- `UiMessage` (src/kafka/mod.rs lines 19-28). -/
structure UiMessage where
  id : String
  partition : Int
  key : String
  offset : Int
  message : String
  timestamp : String
  decodingError : Option String
  deriving DecidableEq, Repr

/-- `MessageType` (src/kafka/decoder.rs). -/
inductive MessageType where
  | json
  | text
  | protobuf
  deriving DecidableEq, Repr

/-! ## ProtoDecoder payload views (src/proto_decoder/mod.rs lines 170-321)

The actual protobuf parse (`MessageDescriptor::parse_from_bytes` followed by
`protobuf_json_mapping::print_to_string`) is an external library call; it is
abstracted as a function `parse : String → Bytes → Option String` mapping a
message full name and a byte view to the reserialised JSON on success.
Descriptor resolution (`resolve_msg`) is abstracted as
`resolves : String → Bool`; a name that does not resolve skips all views,
exactly like the `Err` branch of `resolve_msg` in the source. -/

/-- The varint helper of `ProtoDecoder::decode` (`parse_varint`, lines
200-218): up to 10 bytes, completed only if the last consumed byte has its
most significant bit clear; returns (consumed length, value). -/
def parseVarint (bytes : Bytes) : Option (Nat × Nat) :=
  go bytes 0 0 0
where
  /-- Loop of `parse_varint`: `i < bytes.len() && i < 10`, accumulating
  `val |= (b & 0x7F) << shift` on a `u64` (the fresh 7-bit groups do not
  overlap, so `|` is `+` modulo `2^64`).  The final completion check
  `bytes.get(i-1) has MSB=0` succeeds exactly when the loop left via the
  `break`, so reaching the end of the slice or the 10-byte bound with the
  last byte's MSB set yields `None`. -/
  go : Bytes → Nat → Nat → Nat → Option (Nat × Nat)
  | [], _, _, _ => none
  | b :: rest, i, shift, val =>
    if i ≥ 10 then none
    else
      let val' := (val + (b % 128) * 2 ^ shift) % 2 ^ 64
      if b < 128 then some (i + 1, val')
      else go rest (i + 1) (shift + 7) val'

/-- Confluent-envelope views (src/proto_decoder/mod.rs lines 221-262): when
`len > 5 && payload[0] == 0`, the slice after the 5-byte header, then that
slice after skipping 1..=5 consecutive varints, then the count+indices
pattern. -/
def confluentViews (payload : Bytes) : List Bytes :=
  if payload.length > 5 ∧ payload.head? = some 0 then
    let base := payload.drop 5
    let skipN : List Bytes :=
      -- for n in 1..=5 { skip n varints; push the remainder if any; on the
      -- first n whose varints do not parse, stop }
      (skipLoop base 0 5).reverse
    let countPattern : List Bytes :=
      match parseVarint base with
      | some (c1, cnt) =>
        let c := min cnt 5
        match skipVarints (base.drop c1) c with
        | some off =>
          if c1 + off < base.length then [base.drop (c1 + off)] else []
        | none => []
      | none => []
    [base] ++ skipN ++ countPattern
  else []
where
  /-- Skip exactly `n` varints from the front; returns the total consumed
  length on success. -/
  skipVarints : Bytes → Nat → Option Nat
  | _, 0 => some 0
  | bs, n + 1 =>
    match parseVarint bs with
    | some (consumed, _) =>
      match skipVarints (bs.drop consumed) n with
      | some rest => some (consumed + rest)
      | none => none
    | none => none
  /-- The `for n in 1..=5` loop, accumulating views in reverse; `off` is the
  length already consumed by the first `5 - fuel` varints. -/
  skipLoop (base : Bytes) (off : Nat) : Nat → List Bytes
  | 0 => []
  | fuel + 1 =>
    match parseVarint (base.drop off) with
    | some (consumed, _) =>
      let off' := off + consumed
      let acc := skipLoop base off' fuel
      if off' < base.length then acc ++ [base.drop off'] else acc
    | none => []

/-- gRPC-frame view (lines 264-271): 1 flag byte in {0,1} plus 4-byte
big-endian length. -/
def grpcViews (payload : Bytes) : List Bytes :=
  match payload with
  | b0 :: b1 :: b2 :: b3 :: b4 :: _ =>
    let len := ((b1 * 256 + b2) * 256 + b3) * 256 + b4
    if (b0 = 0 ∨ b0 = 1) ∧ payload.length ≥ 5 + len then
      [(payload.drop 5).take len]
    else []
  | _ => []

/-- Bare varint length prefix view (lines 273-288).  The source re-implements
the varint scan inline without the completion check, so a 10-byte prefix with
the tenth byte's MSB set still yields `i = 10` and a value; we mirror that. -/
def bareVarintViews (payload : Bytes) : List Bytes :=
  let (i, lenVal) := loop payload 0 0 0
  if i > 0 ∧ lenVal > 0 ∧ payload.length ≥ i + lenVal then
    [(payload.drop i).take lenVal]
  else []
where
  /-- `while i < payload.len() && i < 10` accumulation on a `usize`
  (64-bit); returns (i, len_val).  Unlike `parse_varint` there is no
  completion check. -/
  loop : Bytes → Nat → Nat → Nat → Nat × Nat
  | [], i, _, lenVal => (i, lenVal)
  | b :: rest, i, shift, lenVal =>
    if i ≥ 10 then (i, lenVal)
    else
      let lenVal' := (lenVal + (b % 128) * 2 ^ shift) % 2 ^ 64
      if b < 128 then (i + 1, lenVal')
      else loop rest (i + 1) (shift + 7) lenVal'

/-- The ordered list of candidate views built by `ProtoDecoder::decode`
(lines 180-288).  In the source the repaired buffer (`0x0A` prepended) is
pushed immediately after the raw payload (lines 188-197), before the
Confluent, gRPC and bare-varint views. -/
def buildViews (payload : Bytes) : List Bytes :=
  [payload, 10 :: payload] ++ confluentViews payload
    ++ grpcViews payload ++ bareVarintViews payload

/-- `try_with_name` (lines 292-307): for one message name, try each view in
order; the first successful parse wins. -/
def tryWithName (resolves : String → Bool) (parse : String → Bytes → Option String)
    (views : List Bytes) (name : String) : Option String :=
  if resolves name then views.findSome? fun bytes => parse name bytes
  else none

/-- `ProtoDecoder::decode` (lines 170-321): try the selected message name
first, then every candidate from the descriptor set, each over the full view
list; error when nothing parses. -/
def protoDecode (resolves : String → Bool) (parse : String → Bytes → Option String)
    (messageFullName : Option String) (candidates : List String)
    (payload : Bytes) : Except Unit String :=
  let views := buildViews payload
  let selected : Option String :=
    match messageFullName with
    | some name => tryWithName resolves parse views name
    | none => none
  match selected with
  | some json => .ok json
  | none =>
    match candidates.findSome? fun name => tryWithName resolves parse views name with
    | some json => .ok json
    | none => .error ()

/-! ## Kafka::decode and Kafka::new (src/kafka/mod.rs lines 193-246)

`String::from_utf8_lossy` is abstracted as `utf8Lossy : Bytes → String`. -/

/-- The configuration fields of `KafkaConfig` that the embedded code paths
read. -/
structure KConfig where
  messageType : MessageType
  partition : Option String
  startOffset : Option Int
  startFrom : Option String
  protoSchemaPath : Option String
  protoMessageFullName : Option String
  deriving DecidableEq, Repr

/-- The state of an initialized `ProtoDecoder` relevant to `decode`. -/
structure DecoderModel where
  messageFullName : Option String
  candidates : List String
  deriving DecidableEq, Repr

/-- `Kafka::decode` (lines 225-245): key is always UTF-8 lossy; in protobuf
mode with a decoder present, a successful proto decode returns the JSON with
no error, a failed one returns the raw UTF-8 text with `decoding_error` set;
otherwise the plain decoders apply (text/json are UTF-8 lossy). -/
def kafkaDecode (utf8Lossy : Bytes → String) (resolves : String → Bool)
    (parse : String → Bytes → Option String)
    (messageType : MessageType) (protoDecoder : Option DecoderModel)
    (key payload : Option Bytes) : String × String × Option String :=
  let keyS := (key.map utf8Lossy).getD ""
  match messageType, protoDecoder, payload with
  | .protobuf, some pd, some bytes =>
    match protoDecode resolves parse pd.messageFullName pd.candidates bytes with
    | .ok json => (keyS, json, none)
    | .error _ => (keyS, utf8Lossy bytes, some "Protobuf decode error")
  | mt, _, _ =>
    -- fallback `decoder_for(...)` branch: text/json/protobuf placeholder all
    -- UTF-8 lossy decode the payload (src/kafka/decoder.rs)
    let _ := mt
    (keyS, (payload.map utf8Lossy).getD "", none)

/-- The protobuf-initialization part of `Kafka::new` (lines 193-222): in
protobuf mode a schema path is mandatory, and `ProtoDecoder::from_proto_files`
(abstracted as `initDecoder`, since it shells out to `protoc`) must succeed;
in other modes no decoder is built. -/
def kafkaNewDecoder (initDecoder : String → Option String → Except String DecoderModel)
    (cfg : KConfig) : Except String (Option DecoderModel) :=
  match cfg.messageType with
  | .protobuf =>
    match cfg.protoSchemaPath with
    | none => .error "Protobuf message_type selected but no proto_schema_path provided"
    | some path =>
      match initDecoder path cfg.protoMessageFullName with
      | .ok dec => .ok (some dec)
      | .error e => .error ("Failed to initialize proto decoder: " ++ e)
  | _ => .ok none

/-! ## Assignment planning (src/kafka/mod.rs lines 296-371) -/

/-- `rdkafka::Offset` as used by `ensure_assigned`. -/
inductive StartPos where
  | beginning
  | offset (o : Int)
  deriving DecidableEq, Repr

/-- `BACK_WINDOW` (line 348). -/
def backWindow : Int := 2000

/-- The per-partition starting offset computed by `ensure_assigned`
(lines 349-366) given the `newest` and `is_all` flags, the requested
`start_offset`, and the partition's watermarks. -/
def startOffsetFor (newest isAll : Bool) (startOffset : Option Int)
    (low high : Int) : StartPos :=
  if newest then
    .offset (if high > backWindow then high - backWindow else low)
  else if isAll then
    .beginning
  else
    match startOffset with
    | some req => .offset (if req < low then low else req)
    | none => .beginning

/-! ## Reader state and shared helpers (src/kafka/reader/mod.rs)

`Kafka::decode` as invoked by the readers depends on the engine's decoder
configuration; the readers below take it as the parameter `decode` of a
`ReadEnv`, together with the chrono RFC-3339 renderer `fmtMs` (whose
out-of-range case returns the empty string, folded into the parameter). -/

/-- The decode/render environment threaded through the reading loops. -/
structure ReadEnv where
  decode : Option Bytes → Option Bytes → String × String × Option String
  fmtMs : Int → String

/-- The `(ts_ms, ts_str)` pair computed from `m.timestamp()` in every reading
loop: `NotAvailable` yields the `i64::MAX` sentinel and an empty string;
`CreateTime`/`LogAppendTime` yield the raw milliseconds and the rendered
string. -/
def tsRender (fmtMs : Int → String) : KTimestamp → Int × String
  | .notAvailable => (i64Max, "")
  | .createTime ms => (ms, fmtMs ms)
  | .logAppendTime ms => (ms, fmtMs ms)

/-- Construction of the `(ts_ms, UiMessage)` pair from a polled record,
shared verbatim by all reading loops. -/
def mkUi (env : ReadEnv) (r : RawRecord) : Int × UiMessage :=
  let dec := env.decode r.key r.payload
  let ts := tsRender env.fmtMs r.timestamp
  (ts.1,
   { id := toString r.partition ++ "-" ++ toString r.offset
     partition := r.partition
     key := dec.1
     offset := r.offset
     message := dec.2.1
     timestamp := ts.2
     decodingError := dec.2.2 })

/-- One buffered element: `(ts_ms, UiMessage)`. -/
abbrev BufEntry := Int × UiMessage

/-- `HashMap<i32, VecDeque<(i64, UiMessage)>>` as an association list with
unique keys; each queue has its front at the list head. -/
abbrev Buffers := List (Int × List BufEntry)

/-- `buffers.entry(p).or_insert_with(VecDeque::new).push_back(item)`. -/
def bufPush (bufs : Buffers) (p : Int) (item : BufEntry) : Buffers :=
  match bufs.lookup p with
  | some _ => bufs.map fun e => if e.1 = p then (e.1, e.2 ++ [item]) else e
  | none => bufs ++ [(p, [item])]

/-- `buffers.entry(p).or_insert_with(VecDeque::new)` without pushing. -/
def ensureEntry (bufs : Buffers) (p : Int) : Buffers :=
  match bufs.lookup p with
  | some _ => bufs
  | none => bufs ++ [(p, [])]

/-- `if let Some(q) = bufs.get_mut(&p) { q.pop_front() } else { None }`. -/
def bufPopFront (bufs : Buffers) (p : Int) : Option BufEntry × Buffers :=
  match bufs.lookup p with
  | some (x :: xs) => (some x, bufs.map fun e => if e.1 = p then (e.1, xs) else e)
  | some [] => (none, bufs)
  | none => (none, bufs)

/-- `if let Some(q) = bufs.get_mut(&p) { q.pop_back() } else { None }`. -/
def bufPopBack (bufs : Buffers) (p : Int) : Option BufEntry × Buffers :=
  match bufs.lookup p with
  | some (x :: xs) =>
    ((x :: xs).getLast?, bufs.map fun e => if e.1 = p then (e.1, (x :: xs).dropLast) else e)
  | some [] => (none, bufs)
  | none => (none, bufs)

/-- `HashSet::insert` on the done set. -/
def doneInsert (d : List Int) (p : Int) : List Int :=
  if p ∈ d then d else d ++ [p]

/-- `parts.iter().all(|p| done.contains(p))`. -/
def allDone (parts done : List Int) : Bool :=
  parts.all fun p => decide (p ∈ done)

/-- `ends.get(&partition).cloned().unwrap_or(i64::MAX)`. -/
def endOf (ends : List (Int × Int)) (p : Int) : Int :=
  (ends.lookup p).getD i64Max

/-- Mutable reader state shared by the strategies: the done set and the
per-partition buffers. -/
structure RState where
  done : List Int
  buffers : Buffers
  deriving DecidableEq, Repr

/-- Processing of one successfully polled record in the buffering loops
(the identical blocks of the newest prefills and of merge-oldest phase A):
an out-of-window offset only marks the partition done; an in-window record
is decoded and buffered, and `offset ≥ end - 1` additionally marks the
partition done after buffering. -/
def bufferPolled (env : ReadEnv) (ends : List (Int × Int)) (st : RState)
    (r : RawRecord) : RState :=
  let e := endOf ends r.partition
  if r.offset ≥ e then { st with done := doneInsert st.done r.partition }
  else
    let item := mkUi env r
    let st' : RState := { st with buffers := bufPush st.buffers r.partition item }
    if r.offset ≥ e - 1 then { st' with done := doneInsert st'.done r.partition }
    else st'

/-! ### Sequential oldest-first (src/kafka/reader/mod.rs lines 133-192) -/

/-- The poll loop of the oldest-first sequential strategy: collect up to
`limit` in-window records or 20 idle polls, marking partitions done at
`offset ≥ end` (skip) and `offset ≥ end - 1` (after collecting), breaking
early when every plan partition is done.  Returns the collected
`(ts_ms, UiMessage)` pairs, the updated state and the unread trace. -/
def seqOldestLoop (env : ReadEnv) (ends : List (Int × Int)) (parts : List Int)
    (limit : Nat) :
    List PollItem → RState → Nat → List BufEntry →
    List BufEntry × RState × List PollItem
  | trace, st, idle, collected =>
    if collected.length < limit ∧ idle < 20 then
      match trace with
      | [] => (collected, st, [])
      | .idle :: rest => seqOldestLoop env ends parts limit rest st (idle + 1) collected
      | .errItem :: rest => seqOldestLoop env ends parts limit rest st (idle + 1) collected
      | .msg r :: rest =>
        let e := endOf ends r.partition
        if r.offset ≥ e then
          let d := doneInsert st.done r.partition
          if allDone parts d then (collected, { st with done := d }, rest)
          else seqOldestLoop env ends parts limit rest { st with done := d } idle collected
        else
          let item := mkUi env r
          let collected' := collected ++ [item]
          if r.offset ≥ e - 1 then
            let d := doneInsert st.done r.partition
            if allDone parts d then (collected', { st with done := d }, rest)
            else seqOldestLoop env ends parts limit rest { st with done := d } idle collected'
          else seqOldestLoop env ends parts limit rest st idle collected'
    else (collected, st, trace)

/-- `collected.sort_by(|a, b| a.0.cmp(&b.0))`: Rust's stable sort by the
`ts_ms` component.  A stable sort over a total preorder is a unique
function of its input, so the (structural, stable) `List.insertionSort`
computes exactly it. -/
def sortByTs (l : List BufEntry) : List BufEntry :=
  l.insertionSort fun a b => a.1 ≤ b.1

/-- `consume_sequential`, oldest-first branch.  The source's output is the
`UiMessage` component (`for (_ts, ui) in collected { out.push(ui) }`); the
embedding keeps the `(ts_ms, UiMessage)` pairs that the source sorts so that
ordering claims about `ts_ms` are statable, and projects with `Prod.snd`
where the `Vec<UiMessage>` result is needed. -/
def consumeSeqOldest (env : ReadEnv) (ends : List (Int × Int)) (parts : List Int)
    (limit : Nat) (trace : List PollItem) (st : RState) :
    List BufEntry × RState × List PollItem :=
  let r := seqOldestLoop env ends parts limit trace st 0 []
  (sortByTs r.1, r.2.1, r.2.2)

/-! ### Newest-first prefill loops -/

/-- Prefill loop of the newest-first sequential strategy (lines 19-85):
buffer until every plan partition is done or 20 idle polls. -/
def seqNewestPrefill (env : ReadEnv) (ends : List (Int × Int)) (parts : List Int) :
    List PollItem → RState → Nat → RState × List PollItem
  | trace, st, idle =>
    let active := parts.filter fun p => decide (p ∉ st.done)
    if active.isEmpty then (st, trace)
    else if idle ≥ 20 then (st, trace)
    else
      match trace with
      | [] => (st, [])
      | .idle :: rest => seqNewestPrefill env ends parts rest st (idle + 1)
      | .errItem :: rest => seqNewestPrefill env ends parts rest st (idle + 1)
      | .msg r :: rest => seqNewestPrefill env ends parts rest (bufferPolled env ends st r) idle

/-- Prefill loop of the newest-first merge strategy (lines 204-258): same
body, but the loop exits on `done_all` and the idle budget is 40. -/
def mergeNewestPrefill (env : ReadEnv) (ends : List (Int × Int)) (parts : List Int) :
    List PollItem → RState → Nat → RState × List PollItem
  | trace, st, idle =>
    if allDone parts st.done then (st, trace)
    else if idle ≥ 40 then (st, trace)
    else
      match trace with
      | [] => (st, [])
      | .idle :: rest => mergeNewestPrefill env ends parts rest st (idle + 1)
      | .errItem :: rest => mergeNewestPrefill env ends parts rest st (idle + 1)
      | .msg r :: rest => mergeNewestPrefill env ends parts rest (bufferPolled env ends st r) idle

/-! ### The `BinaryHeap` model

Entries are `((ts_ms, partition, offset), partition)`; `pop` returns the
entry whose key is extremal in the lexicographic order.  All pushed keys
carry the `(partition, offset)` pair of a buffered record, and records with
the same `(partition, offset)` are identical, so ties are between identical
entries and the pop is deterministic like the Rust heap's. -/

abbrev HKey := Int × Int × Int

abbrev HEntry := HKey × Int

/-- Strict lexicographic order on `(i64, i32, i64)` keys, as derived by
`#[derive(Ord)]` on Rust tuples. -/
def KeyLt (a b : HKey) : Prop :=
  a.1 < b.1 ∨ (a.1 = b.1 ∧ (a.2.1 < b.2.1 ∨ (a.2.1 = b.2.1 ∧ a.2.2 < b.2.2)))

instance : DecidableRel KeyLt := fun a b => by
  unfold KeyLt; infer_instance

/-- `KeyLt` or equality: the reflexive closure used for sortedness claims. -/
def KeyLe (a b : HKey) : Prop := KeyLt a b ∨ a = b

instance : DecidableRel KeyLe := fun a b => by
  unfold KeyLe; infer_instance

/-- `BinaryHeap::pop` on a max-heap of entries (largest key). -/
def heapMax : List HEntry → Option HEntry
  | [] => none
  | x :: xs =>
    match heapMax xs with
    | none => some x
    | some m => if KeyLt x.1 m.1 then some m else some x

/-- `BinaryHeap::pop` on a min-heap (the entries are pushed under
`Reverse`, so the popped entry has the smallest key). -/
def heapMin : List HEntry → Option HEntry
  | [] => none
  | x :: xs =>
    match heapMin xs with
    | none => some x
    | some m => if KeyLt m.1 x.1 then some m else some x

/-- Seed entries from every buffer's front (`q.front()`), as in merge-oldest
step 2. -/
def seedHeads (bufs : Buffers) : List HEntry :=
  bufs.filterMap fun e => e.2.head?.map fun it => ((it.1, e.1, it.2.offset), e.1)

/-- Seed entries from every buffer's back (`q.back()`), as in the
newest-first emitters. -/
def seedTails (bufs : Buffers) : List HEntry :=
  bufs.filterMap fun e => e.2.getLast?.map fun it => ((it.1, e.1, it.2.offset), e.1)

/-- Total number of buffered records. -/
def totalBuf (bufs : Buffers) : Nat :=
  (bufs.map fun e => e.2.length).sum

/-! ### Newest-first tail emitter (lines 87-130 and 260-298, identical) -/

/-- The `while out.len() < limit` tail-emission loop: pop the max-heap, pop
the back of the chosen partition's buffer, emit it, and push the new tail.
Each iteration removes one heap entry and pushes at most one after removing
a buffered record, so `heap.length + totalBuf bufs` bounds the iteration
count; `emitTails` below supplies that fuel. -/
def emitTailsLoop (limit : Nat) :
    Nat → List HEntry → Buffers → List BufEntry → List BufEntry × Buffers
  | 0, _, bufs, out => (out, bufs)
  | fuel + 1, heap, bufs, out =>
    if out.length < limit then
      match heapMax heap with
      | none => (out, bufs)
      | some entry =>
        let heap' := heap.erase entry
        let pick := entry.2
        let popped := bufPopBack bufs pick
        match popped.1 with
        | none => emitTailsLoop limit fuel heap' popped.2 out
        | some item =>
          let out' := out ++ [item]
          let tail? : Option HEntry :=
            (popped.2.lookup pick).bind fun q =>
              q.getLast?.map fun it => ((it.1, pick, it.2.offset), pick)
          match tail? with
          | some e2 => emitTailsLoop limit fuel (heap' ++ [e2]) popped.2 out'
          | none => emitTailsLoop limit fuel heap' popped.2 out'
    else (out, bufs)

/-- Newest-first emission from current buffer tails (the source discards
the `ts_ms` of each popped pair; the embedding keeps the pairs, projecting
with `Prod.snd` where the `Vec<UiMessage>` is needed). -/
def emitTails (limit : Nat) (bufs : Buffers) : List BufEntry × Buffers :=
  let heap := seedTails bufs
  emitTailsLoop limit (heap.length + totalBuf bufs + 1) heap bufs []

/-- `consume_sequential`, newest-first branch. -/
def consumeSeqNewest (env : ReadEnv) (ends : List (Int × Int)) (parts : List Int)
    (limit : Nat) (trace : List PollItem) (st : RState) :
    List BufEntry × RState × List PollItem :=
  let pre := seqNewestPrefill env ends parts trace st 0
  let emitted := emitTails limit pre.1.buffers
  (emitted.1, { pre.1 with buffers := emitted.2 }, pre.2)

/-- `consume_merge`, newest-first branch. -/
def consumeMergeNewest (env : ReadEnv) (ends : List (Int × Int)) (parts : List Int)
    (limit : Nat) (trace : List PollItem) (st : RState) :
    List BufEntry × RState × List PollItem :=
  let pre := mergeNewestPrefill env ends parts trace st 0
  let emitted := emitTails limit pre.1.buffers
  (emitted.1, { pre.1 with buffers := emitted.2 }, pre.2)

/-! ### Merge-oldest (src/kafka/reader/mod.rs lines 301-476) -/

/-- Processing of one successfully polled record inside the merge loop's
poll and refill branches (lines 367-391 and 442-467): like `bufferPolled`
but without the `offset ≥ end - 1` done-marking, and pushing a heap entry
when the record becomes a new head (`was_empty`). -/
def bufferPolledHeap (env : ReadEnv) (ends : List (Int × Int)) (st : RState)
    (heap : List HEntry) (r : RawRecord) : RState × List HEntry :=
  let e := endOf ends r.partition
  if r.offset ≥ e then ({ st with done := doneInsert st.done r.partition }, heap)
  else
    let item := mkUi env r
    let wasEmpty := ((st.buffers.lookup r.partition).getD []).isEmpty
    let st' : RState := { st with buffers := bufPush st.buffers r.partition item }
    (st', if wasEmpty then heap ++ [((item.1, r.partition, r.offset), r.partition)] else heap)

/-- Merge-oldest step 1 (lines 305-348): poll until every active partition
has a buffered head or 20 idle polls; returns the state, the idle counter
(shared with step 2) and the unread trace.  An exhausted trace stands for an
idle source, which drives the idle counter to the budget. -/
def fillHeadsLoop (env : ReadEnv) (ends : List (Int × Int)) (parts : List Int) :
    List PollItem → RState → Nat → RState × Nat × List PollItem
  | trace, st, idle =>
    let active := parts.filter fun p => decide (p ∉ st.done)
    let bufs1 := active.foldl ensureEntry st.buffers
    let st1 : RState := { st with buffers := bufs1 }
    let need := active.any fun p => ((bufs1.lookup p).getD []).isEmpty
    if ¬ need then (st1, idle, trace)
    else if idle ≥ 20 then (st1, idle, trace)
    else
      match trace with
      | [] => (st1, 20, [])
      | .idle :: rest => fillHeadsLoop env ends parts rest st1 (idle + 1)
      | .errItem :: rest => fillHeadsLoop env ends parts rest st1 (idle + 1)
      | .msg r :: rest => fillHeadsLoop env ends parts rest (bufferPolled env ends st1 r) idle

/-- Targeted refill (lines 431-472): poll until the picked partition gains a
head or is marked done, or 5 idle polls; in-window records are buffered on
their owning partition (new heads pushed into the heap), and the refill
breaks as soon as the picked partition itself receives a record. -/
def refillLoop (env : ReadEnv) (ends : List (Int × Int)) (pickP : Int) :
    List PollItem → Nat → RState → List HEntry →
    RState × List HEntry × List PollItem
  | trace, localIdle, st, heap =>
    if decide (pickP ∈ st.done) then (st, heap, trace)
    else if ¬ ((st.buffers.lookup pickP).getD []).isEmpty then (st, heap, trace)
    else if localIdle ≥ 5 then (st, heap, trace)
    else
      match trace with
      | [] => (st, heap, [])
      | .idle :: rest => refillLoop env ends pickP rest (localIdle + 1) st heap
      | .errItem :: rest => refillLoop env ends pickP rest (localIdle + 1) st heap
      | .msg r :: rest =>
        let next := bufferPolledHeap env ends st heap r
        if r.offset ≥ endOf ends r.partition then
          refillLoop env ends pickP rest localIdle next.1 next.2
        else if r.partition = pickP then (next.1, next.2, rest)
        else refillLoop env ends pickP rest localIdle next.1 next.2

/-- Merge-oldest step 2 (lines 350-473): pop the minimal `(ts, p, off)` key,
pop that partition's buffer head, mark done at `offset ≥ end - 1`, emit, and
push the next head or run a targeted refill; when the heap is empty, poll
(sharing the idle budget of 20 with step 1) to rebuild it.  Every iteration
removes a heap entry, consumes a trace item, or stops, and each consumed
trace item adds at most one heap entry and one buffered record, so
`heap.length + totalBuf + 3 * trace.length` bounds the iterations;
`consumeMergeOldest` supplies that fuel. -/
def mergeOldestLoop (env : ReadEnv) (ends : List (Int × Int)) (limit : Nat) :
    Nat → List PollItem → RState → List HEntry → Nat → List BufEntry →
    List BufEntry × RState × List PollItem
  | 0, trace, st, _, _, out => (out, st, trace)
  | fuel + 1, trace, st, heap, idle, out =>
    if out.length < limit then
      match heapMin heap with
      | none =>
        if idle ≥ 20 then (out, st, trace)
        else
          match trace with
          | [] => (out, st, [])
          | .idle :: rest => mergeOldestLoop env ends limit fuel rest st heap (idle + 1) out
          | .errItem :: rest => mergeOldestLoop env ends limit fuel rest st heap (idle + 1) out
          | .msg r :: rest =>
            let next := bufferPolledHeap env ends st heap r
            mergeOldestLoop env ends limit fuel rest next.1 next.2 idle out
      | some entry =>
        let heap' := heap.erase entry
        let pickP := entry.2
        let popped := bufPopFront st.buffers pickP
        let st' : RState := { st with buffers := popped.2 }
        match popped.1 with
        | none => mergeOldestLoop env ends limit fuel trace st' heap' idle out
        | some item =>
          let eForP := endOf ends pickP
          let st'' : RState :=
            if item.2.offset ≥ eForP - 1 then { st' with done := doneInsert st'.done pickP }
            else st'
          let out' := out ++ [item]
          match (st''.buffers.lookup pickP).getD [] with
          | next :: _ =>
            mergeOldestLoop env ends limit fuel trace st''
              (heap' ++ [((next.1, pickP, next.2.offset), pickP)]) idle out'
          | [] =>
            let refilled := refillLoop env ends pickP trace 0 st'' heap'
            mergeOldestLoop env ends limit fuel refilled.2.2 refilled.1 refilled.2.1 idle out'
    else (out, st, trace)

/-- `consume_merge`, oldest-first branch. -/
def consumeMergeOldest (env : ReadEnv) (ends : List (Int × Int)) (parts : List Int)
    (limit : Nat) (trace : List PollItem) (st : RState) :
    List BufEntry × RState × List PollItem :=
  let fill := fillHeadsLoop env ends parts trace st 0
  let heap := seedHeads fill.1.buffers
  let fuel := heap.length + totalBuf fill.1.buffers + 3 * fill.2.2.length + 1
  mergeOldestLoop env ends limit fuel fill.2.2 fill.1 heap fill.2.1 []

/-! ## Tiny JSON-path predicate (src/kafka_adapter.rs lines 104-178)

`serde_json::Value` is modelled by `Json` (numbers restricted to the
integers the claims mention; objects are key-unique association lists as in
serde's map, with `Value::get` semantics).  `serde_json::from_str` is an
external parser and is a parameter `parseJson` wherever the source calls
it. -/

mutual

inductive Json where
  | null
  | bool (b : Bool)
  | num (n : Int)
  | str (s : List Char)
  | arr (elems : JsonList)
  | obj (fields : JsonFields)
  deriving DecidableEq, Repr

inductive JsonList where
  | nil
  | cons (hd : Json) (tl : JsonList)
  deriving DecidableEq, Repr

inductive JsonFields where
  | nil
  | cons (key : List Char) (val : Json) (tl : JsonFields)
  deriving DecidableEq, Repr

end

/-- Object field lookup (`serde_json::Map::get`). -/
def JsonFields.lookupKey : JsonFields → List Char → Option Json
  | .nil, _ => none
  | .cons k v tl, key => if k = key then some v else tl.lookupKey key

/-- Array indexing (`Vec::get`). -/
def JsonList.get? : JsonList → Nat → Option Json
  | .nil, _ => none
  | .cons h _, 0 => some h
  | .cons _ t, n + 1 => t.get? n

/-- `Value::get(key)`: `Some` only on objects. -/
def jGet (v : Json) (key : List Char) : Option Json :=
  match v with
  | .obj fs => fs.lookupKey key
  | _ => none

/-- `Value::get(n)`: `Some` only on arrays. -/
def jIdx (v : Json) (n : Nat) : Option Json :=
  match v with
  | .arr xs => xs.get? n
  | _ => none

/-- A character that continues a key segment (neither `.` nor `[`). -/
def notSeg (c : Char) : Bool :=
  decide (c ≠ '.') && decide (c ≠ '[')

/-- `"123".parse::<usize>()` on a nonempty digit run. -/
def digitsToNat (digits : List Char) : Nat :=
  digits.foldl (fun acc c => acc * 10 + (c.toNat - '0'.toNat)) 0

/-- `if idx < len && bytes[idx] == b'.' { idx += 1 }` after a `]`: skip one
optional dot. -/
def skipDot : List Char → List Char
  | '.' :: t => t
  | l => l

theorem skipDot_length_le (l : List Char) : (skipDot l).length ≤ l.length := by
  unfold skipDot
  split <;> simp

/-- The scanning loop of `json_path_get` (lines 148-176), phrased on the
suffix of the path after the current index: read a key segment up to the
next `.` or `[` and navigate it, then dispatch on the separator; `[n]`
requires a nonempty digit run closed by `]`, navigates the index and skips
an optional following dot.  `fuel` clocks the loop: every iteration consumes
at least one character of the remaining path, so any clock above the path
length is exact (`pathGo_fuel` below). -/
def pathGo : Nat → Json → List Char → Option Json
  | 0, _, _ => none
  | _ + 1, cur, [] => some cur
  | fuel + 1, cur, c0 :: cs0 =>
    match (if ((c0 :: cs0).takeWhile notSeg).isEmpty then some cur
           else jGet cur ((c0 :: cs0).takeWhile notSeg)) with
    | none => none
    | some cur2 =>
      match (c0 :: cs0).dropWhile notSeg with
      | [] => some cur2
      | c1 :: rest2 =>
        if c1 = '.' then pathGo fuel cur2 rest2
        else if c1 = '[' then
          if (rest2.takeWhile Char.isDigit).isEmpty then none
          else
            match rest2.dropWhile Char.isDigit with
            | ']' :: rest4 =>
              match jIdx cur2 (digitsToNat (rest2.takeWhile Char.isDigit)) with
              | none => none
              | some cur3 => pathGo fuel cur3 (skipDot rest4)
            | _ => none
        else none

/-- Any clock above the remaining path length evaluates `pathGo`
identically, so the `cs.length + 1` clock of `pathStep` is the loop's exact
semantics. -/
theorem pathGo_fuel : ∀ (f1 f2 : Nat) (cur : Json) (cs : List Char),
    cs.length < f1 → cs.length < f2 → pathGo f1 cur cs = pathGo f2 cur cs := by
  intro f1
  induction f1 with
  | zero => intro f2 cur cs h1; omega
  | succ f1 ih =>
    intro f2 cur cs h1 h2
    match f2, h2 with
    | f2 + 1, h2 =>
      match cs with
      | [] => rfl
      | c0 :: cs0 =>
        simp only [pathGo]
        rcases hk : (if ((c0 :: cs0).takeWhile notSeg).isEmpty then some cur
            else jGet cur ((c0 :: cs0).takeWhile notSeg)) with _ | cur2
        · rfl
        · have hd1 := (List.dropWhile_sublist (l := c0 :: cs0) notSeg).length_le
          rcases hrest : (c0 :: cs0).dropWhile notSeg with _ | ⟨c1, rest2⟩
          · rfl
          · rw [hrest] at hd1
            simp only [List.length_cons] at hd1 h1 h2
            dsimp only
            by_cases hdot : c1 = '.'
            · rw [if_pos hdot, if_pos hdot]
              exact ih f2 cur2 rest2 (by omega) (by omega)
            · rw [if_neg hdot, if_neg hdot]
              by_cases hbr : c1 = '['
              · rw [if_pos hbr, if_pos hbr]
                by_cases hdig : (rest2.takeWhile Char.isDigit).isEmpty = true
                · rw [if_pos hdig, if_pos hdig]
                · rw [if_neg hdig, if_neg hdig]
                  have hd2 := (List.dropWhile_sublist (l := rest2) Char.isDigit).length_le
                  rcases hrest3 : rest2.dropWhile Char.isDigit with _ | ⟨c3, rest4⟩
                  · rfl
                  · rw [hrest3] at hd2
                    simp only [List.length_cons] at hd2
                    split
                    · rcases hidx : jIdx cur2 (digitsToNat (rest2.takeWhile Char.isDigit)) with _ | cur3
                      · rfl
                      · rename_i rest4' heq
                        have hr4 : rest4 = rest4' := (List.cons.injEq c3 rest4 ']' rest4').mp heq |>.2
                        subst hr4
                        have hsk := skipDot_length_le rest4
                        exact ih f2 cur3 (skipDot rest4) (by omega) (by omega)
                    · rfl
              · rw [if_neg hbr, if_neg hbr]

/-- The loop entry of `json_path_get`, with its exact clock. -/
def pathStep (cur : Json) (cs : List Char) : Option Json :=
  pathGo (cs.length + 1) cur cs

/-- `json_path_get` (lines 145-178): requires a leading `.`, then scans. -/
def jsonPathGet (root : Json) (path : List Char) : Option Json :=
  match path with
  | '.' :: rest => pathStep root rest
  | _ => none

/-- `str::trim` (the paths and literals involved are ASCII). -/
def trimList (s : List Char) : List Char :=
  ((s.dropWhile Char.isWhitespace).reverse.dropWhile Char.isWhitespace).reverse

/-- `str::find(pattern)`: index of the first occurrence. -/
def findSub : List Char → List Char → Option Nat
  | hay, pat =>
    if pat.isPrefixOf hay then some 0
    else
      match hay with
      | [] => none
      | _ :: t => (findSub t pat).map (· + 1)

/-- `str::trim_start_matches("==")`: strip every leading `==` repetition. -/
def trimStartMatchesEq : List Char → List Char
  | '=' :: '=' :: rest => trimStartMatchesEq rest
  | s => s

/-- `r.strip_prefix('"').and_then(|s| s.strip_suffix('"')).unwrap_or(r)`. -/
def stripQuotes (r : List Char) : List Char :=
  match r with
  | '"' :: rest => if rest.getLast? = some '"' then rest.dropLast else r
  | _ => r

/-- `eval_jq_bool` (lines 104-143): `"true"` is always true; an expression
containing `==` compares the value at the left path with the right literal
(parsed as JSON first, else quote-stripped string), erring when the path is
not found; a path-only expression is true iff the resolved value is JSON
`true` (false when unresolved); anything else errs as unsupported. -/
def evalJq (parseJson : List Char → Option Json) (program : List Char)
    (value : Json) : Except String Bool :=
  let src := trimList program
  if src = "true".toList then .ok true
  else
    match findSub src ['=', '='] with
    | some idx =>
      let left := trimList (src.take idx)
      let right := trimList (trimStartMatchesEq (src.drop idx))
      match jsonPathGet value left with
      | none => .error "jq path not found"
      | some lv =>
        let rv : Json :=
          match parseJson right with
          | some v => v
          | none => .str (stripQuotes (trimList right))
        .ok (decide (lv = rv))
    | none =>
      if src.head? = some '.' then
        match jsonPathGet value src with
        | some v => .ok (decide (v = Json.bool true))
        | none => .ok false
      else .error "unsupported jq expression"

/-! ## Filtered streaming runner (src/kafka_adapter.rs lines 180-372) -/

/-- `FilterMode` (lines 82-90). -/
inductive FilterMode where
  | plain
  | jq
  deriving DecidableEq, Repr

/-- Events emitted by the background task (`kafka:load_started` is emitted
before the loop; the loop emits `message`, `load_done`, `load_cancelled`). -/
inductive FEvent where
  | cancelled
  | doneEv (emitted : Nat)
  | message (ui : UiMessage)
  deriving DecidableEq, Repr

/-- `s.to_lowercase()` on the ASCII strings the filters compare. -/
def lowerChars (s : String) : List Char :=
  s.toList.map Char.toLower

/-- `hay.contains(needle)` on strings. -/
def containsSub (hay needle : List Char) : Bool :=
  hay.tails.any fun t => needle.isPrefixOf t

/-- The filter of lines 305-329: key filter is a case-insensitive substring
match; the message filter is either a case-insensitive substring match
(`Plain`) or a jq evaluation over the parsed payload (`Jq`), where a parse
failure or any non-`Ok(true)` evaluation drops the record.  Empty filter
strings are treated as absent. -/
def passFilters (parseJson : List Char → Option Json) (mode : FilterMode)
    (keyFilter msgFilter : Option String) (keyS payloadS : String) : Bool :=
  let p1 :=
    match keyFilter with
    | some kf => if kf = "" then true else containsSub (lowerChars keyS) (lowerChars kf)
    | none => true
  if p1 then
    match msgFilter with
    | some mf =>
      if mf = "" then true
      else
        match mode with
        | .jq =>
          match parseJson payloadS.toList with
          | some val =>
            match evalJq parseJson mf.toList val with
            | .ok true => true
            | _ => false
          | none => false
        | .plain => containsSub (lowerChars payloadS) (lowerChars mf)
    | none => true
  else false

/-- The spawned loop of `start_filtered_load` (lines 248-368).  `cancel i`
models the `try_recv` outcome at iteration `i` (`true` for `Ok`/`Closed`).
The runner re-implements `Kafka::decode` inline with identical cases, so the
same abstract `env.decode` is used.  Out-of-window records are skipped and
mark their partition done; matching in-window records are emitted, and
`offset ≥ end - 1` marks the partition done after processing (unless the
limit broke the loop first).  An exhausted trace models a run cut short
while blocked on an idle source. -/
def filteredLoop (env : ReadEnv) (parseJson : List Char → Option Json)
    (ends : List (Int × Int)) (parts : List Int) (limit : Nat)
    (keyFilter msgFilter : Option String) (mode : FilterMode)
    (cancel : Nat → Bool) :
    List PollItem → Nat → List Int → Nat → List FEvent → List FEvent × List Int
  | trace, iter, doneParts, emitted, events =>
    if cancel iter then (events ++ [.cancelled], doneParts)
    else if ¬ parts.isEmpty ∧ allDone parts doneParts then
      (events ++ [.doneEv emitted], doneParts)
    else
      match trace with
      | [] => (events, doneParts)
      | .idle :: rest =>
        filteredLoop env parseJson ends parts limit keyFilter msgFilter mode cancel
          rest (iter + 1) doneParts emitted events
      | .errItem :: rest =>
        filteredLoop env parseJson ends parts limit keyFilter msgFilter mode cancel
          rest (iter + 1) doneParts emitted events
      | .msg r :: rest =>
        let e := endOf ends r.partition
        if r.offset ≥ e then
          filteredLoop env parseJson ends parts limit keyFilter msgFilter mode cancel
            rest (iter + 1) (doneInsert doneParts r.partition) emitted events
        else
          let dec := env.decode r.key r.payload
          let pass := passFilters parseJson mode keyFilter msgFilter dec.1 dec.2.1
          let events' :=
            if pass then
              events ++ [.message
                { id := toString r.partition ++ "-" ++ toString r.offset
                  partition := r.partition
                  key := dec.1
                  offset := r.offset
                  message := dec.2.1
                  timestamp := (tsRender env.fmtMs r.timestamp).2
                  decodingError := dec.2.2 }]
            else events
          let emitted' := if pass then emitted + 1 else emitted
          if pass ∧ emitted' ≥ limit then (events' ++ [.doneEv emitted'], doneParts)
          else
            let d' := if r.offset ≥ e - 1 then doneInsert doneParts r.partition else doneParts
            filteredLoop env parseJson ends parts limit keyFilter msgFilter mode cancel
              rest (iter + 1) d' emitted' events'

/-! ## Engine facade (src/kafka/mod.rs lines 123-401)

Lock poisoning is a cross-thread panic artefact outside the single-threaded
embedding; every `lock()` here succeeds.  `consumer.assign` and the decoder
initialization are externals, parameterized where their failure matters. -/

/-- The engine state: configuration, proto decoder, `assigned` flag, plan
snapshot, done set, buffers and the consumer's current assignment (the empty
list is an empty `TopicPartitionList`, i.e. unassigned). -/
structure Engine where
  config : KConfig
  protoDecoder : Option DecoderModel
  assigned : Bool
  endOffsets : List (Int × Int)
  partitions : List Int
  done : List Int
  buffers : Buffers
  assignment : List (Int × StartPos)
  deriving Repr

/-- `Kafka::new` (lines 193-222): builds the consumer (external, assumed to
succeed), initializes the proto decoder per `kafkaNewDecoder`, and starts
with `assigned = false` and all containers empty. -/
def kafkaNew (initDecoder : String → Option String → Except String DecoderModel)
    (cfg : KConfig) : Except String Engine :=
  match kafkaNewDecoder initDecoder cfg with
  | .error e => .error e
  | .ok pd =>
    .ok { config := cfg, protoDecoder := pd, assigned := false, endOffsets := []
          partitions := [], done := [], buffers := [], assignment := [] }

/-- `Kafka::apply_filters_mut` (lines 280-293): update the selector fields,
drop the assigned flag, clear the snapshot, done set and buffers, and assign
an empty partition list; `assignOk` models the external `consumer.assign`
result, which in this version is called after all state is already reset. -/
def applyFiltersMut (assignOk : Bool) (e : Engine) (partition : Option String)
    (startOffset : Option Int) (startFrom : Option String) :
    Engine × Except String Unit :=
  let cfg := { e.config with
                partition := partition
                startOffset := startOffset
                startFrom := match startFrom with
                             | some s => some s
                             | none => e.config.startFrom }
  let e' := { e with
               config := cfg, assigned := false, endOffsets := []
               partitions := [], done := [], buffers := [], assignment := [] }
  (e', if assignOk then .ok () else .error "assign failed")

/-- `part_str.parse::<i32>()`: optional sign followed by a nonempty digit
run. -/
def parseIntChars (s : List Char) : Option Int :=
  match s with
  | '-' :: ds => (digitsValue ds).map fun n => -(n : Int)
  | '+' :: ds => (digitsValue ds).map fun n => (n : Int)
  | ds => (digitsValue ds).map fun n => (n : Int)
where
  /-- A nonempty all-digit run; `i32::from_str` additionally rejects values
  outside the `i32` range, which no realistic partition id reaches. -/
  digitsValue (ds : List Char) : Option Nat :=
    if ds ≠ [] ∧ ds.all Char.isDigit then some (digitsToNat ds) else none

/-- `config.partition` resolution in `ensure_assigned` (lines 302-323):
a non-`"all"`, nonempty string is parsed as a partition id, otherwise the
topic's partitions come from metadata (`meta = none` models a topic that is
absent from the metadata). -/
def resolvePartitions (meta : Option (List Int)) (partition : Option String) :
    Except String (List Int) :=
  match partition with
  | some ps =>
    if ps ≠ "all" ∧ ps ≠ "" then
      match parseIntChars ps.toList with
      | some p => .ok [p]
      | none => .error "Invalid partition id"
    else
      match meta with
      | some l => .ok l
      | none => .error "Topic not found in metadata"
  | none =>
    match meta with
    | some l => .ok l
    | none => .error "Topic not found in metadata"

/-- `partition.as_deref().map(|s| s == "all").unwrap_or(true)`. -/
def isAllSelector (partition : Option String) : Bool :=
  (partition.map fun s => decide (s = "all")).getD true

/-- `str::eq_ignore_ascii_case` (the strings involved are ASCII, where the
simple per-character lowercase mapping coincides with the ASCII one). -/
def eqIgnoreAsciiCase (a b : String) : Bool :=
  a.toList.map Char.toLower == b.toList.map Char.toLower

/-- `start_from.as_deref().map(|s| s.eq_ignore_ascii_case("newest"))
.unwrap_or(false)`. -/
def isNewest (startFrom : Option String) : Bool :=
  (startFrom.map fun s => eqIgnoreAsciiCase s "newest").getD false

/-- `Kafka::ensure_assigned` (lines 296-371): a no-op when already assigned
(`swap` returns the previous flag); otherwise sets `assigned`, resolves the
partitions, snapshots `end_offsets` from the high watermarks `wm`, stores
the partitions, clears the buffers, and assigns the computed starting
offsets.  Watermark fetches are modelled as always succeeding; the done set
is (deliberately, as in the source) not cleared.  Returns the mutated
engine and the call's result. -/
def ensureAssigned (meta : Option (List Int)) (wm : Int → Int × Int)
    (e : Engine) : Engine × Except String Unit :=
  if e.assigned then (e, .ok ())
  else
    let e1 := { e with assigned := true }
    match resolvePartitions meta e.config.partition with
    | .error s => (e1, .error s)
    | .ok partitions =>
      let ends := partitions.map fun p => (p, (wm p).2)
      let e2 := { e1 with endOffsets := ends, partitions := partitions, buffers := [] }
      let isAll := isAllSelector e.config.partition
      let newest := isNewest e.config.startFrom
      let tpl := partitions.map fun p =>
        (p, startOffsetFor newest isAll e.config.startOffset (wm p).1 (wm p).2)
      ({ e2 with assignment := tpl }, .ok ())

/-- `consume_sequential` (reader/mod.rs lines 10-193): dispatch on
`start_from`. -/
def consumeSequential (env : ReadEnv) (ends : List (Int × Int)) (parts : List Int)
    (limit : Nat) (startFrom : Option String) (trace : List PollItem)
    (st : RState) : List BufEntry × RState × List PollItem :=
  if isNewest startFrom then consumeSeqNewest env ends parts limit trace st
  else consumeSeqOldest env ends parts limit trace st

/-- `consume_merge` (reader/mod.rs lines 196-476): dispatch on
`start_from`. -/
def consumeMerge (env : ReadEnv) (ends : List (Int × Int)) (parts : List Int)
    (limit : Nat) (startFrom : Option String) (trace : List PollItem)
    (st : RState) : List BufEntry × RState × List PollItem :=
  if isNewest startFrom then consumeMergeNewest env ends parts limit trace st
  else consumeMergeOldest env ends parts limit trace st

/-- `Kafka::consume_next` (lines 374-400): ensure assignment, snapshot ends
and partitions, return an empty batch when every partition is done and no
buffer holds records, and otherwise dispatch to the sequential strategy
(specific partition selected, or at most one partition in the plan) or the
merge strategy.  The strategies' `(ts_ms, UiMessage)` outputs are projected
to the `Vec<UiMessage>` result. -/
def consumeNext (meta : Option (List Int)) (wm : Int → Int × Int)
    (env : ReadEnv) (e : Engine) (limit : Nat) (trace : List PollItem) :
    Engine × Except String (List UiMessage) :=
  match ensureAssigned meta wm e with
  | (e1, .error s) => (e1, .error s)
  | (e1, .ok ()) =>
    let ends := e1.endOffsets
    let parts := e1.partitions
    let alld := allDone parts e1.done
    let hasBuffered := e1.buffers.any fun q => ¬ q.2.isEmpty
    if alld ∧ ¬ hasBuffered then (e1, .ok [])
    else
      let partitionsAll := isAllSelector e1.config.partition
      let st : RState := { done := e1.done, buffers := e1.buffers }
      let res :=
        if ¬ partitionsAll ∨ parts.length ≤ 1 then
          consumeSequential env ends parts limit e1.config.startFrom trace st
        else
          consumeMerge env ends parts limit e1.config.startFrom trace st
      ({ e1 with done := res.2.1.done, buffers := res.2.1.buffers },
       .ok (res.1.map Prod.snd))

/-- Engine states reachable through the command surface: construction via
`Kafka::new`, `apply_filters`, and the consuming entry points (both
`consume_next` and `start_filtered_load`, whose only engine mutation is
`ensure_assigned`). -/
inductive Reachable : Engine → Prop where
  | new : ∀ initDecoder cfg e, kafkaNew initDecoder cfg = .ok e → Reachable e
  | applyF : ∀ e ok p so sf, Reachable e →
      Reachable (applyFiltersMut ok e p so sf).1
  | ensureA : ∀ e meta wm, Reachable e → Reachable (ensureAssigned meta wm e).1
  | consume : ∀ e meta wm env limit trace, Reachable e →
      Reachable (consumeNext meta wm env e limit trace).1

/-! ## Shared concrete instances for counterexamples and witnesses -/

/-- A decode environment with trivial decoding and numeric timestamp
rendering, used by concrete runs. -/
def cEnv : ReadEnv := { decode := fun _ _ => ("", "", none), fmtMs := fun ms => toString ms }

/-- A configuration selecting partition 3, starting from newest. -/
def cfgNewest : KConfig :=
  { messageType := .json, partition := some "3", startOffset := none
    startFrom := some "newest", protoSchemaPath := none, protoMessageFullName := none }

/-- An unassigned engine with the newest-start configuration. -/
def engNewest : Engine :=
  { config := cfgNewest, protoDecoder := none, assigned := false, endOffsets := []
    partitions := [], done := [], buffers := [], assignment := [] }

/-! ## C2 — newest starting offset -/

/-- C2 (amended): for `start_from = "newest"` the planner computes
`start = high - 2000` when `high > 2000` and `start = low` otherwise; this
agrees with the claimed `max(low, high - 2000)` exactly when `low` does not
exceed the back window (`low ≤ high - 2000` whenever `high > 2000`) and is
nonnegative.  Under those conditions every partition is assigned
`max(low, high - 2000)`; in particular `low = 0`, `high = 100000` gives
`98000`. -/
theorem C2_newest_start_clamped
    (meta : Option (List Int)) (wm : Int → Int × Int) (e : Engine)
    (parts : List Int) (low high : Int)
    (hassigned : e.assigned = false)
    (hnewest : isNewest e.config.startFrom = true)
    (hres : resolvePartitions meta e.config.partition = .ok parts)
    (hwm : ∀ p, wm p = (low, high))
    (hclamp : backWindow < high → low ≤ high - backWindow)
    (hlow : high ≤ backWindow → 0 ≤ low) :
    (ensureAssigned meta wm e).1.assignment
      = parts.map fun p => (p, StartPos.offset (max low (high - backWindow))) := by
  have hstart : ∀ isAll so, startOffsetFor true isAll so low high
      = StartPos.offset (max low (high - backWindow)) := by
    intro isAll so
    unfold startOffsetFor
    by_cases hgt : high > backWindow
    · have h1 := hclamp hgt
      have hmax : max low (high - backWindow) = high - backWindow := max_eq_right h1
      simp [hgt, hmax]
    · have h0 := hlow (by omega)
      have hmax : max low (high - backWindow) = low := max_eq_left (by omega)
      simp [hgt, hmax]
  unfold ensureAssigned
  rw [hassigned]
  simp only [Bool.false_eq_true, if_false, hres]
  simp only [hnewest, hwm, hstart]

/-- C2 counterexample: with watermarks `low = 5000`, `high = 6000` the code
assigns start `4000`, not the claimed `max(low, high - 2000) = 5000`. -/
theorem C2_counterexample :
    (ensureAssigned none (fun _ => (5000, 6000)) engNewest).1.assignment
        = [(3, StartPos.offset 4000)]
      ∧ max (5000 : Int) (6000 - backWindow) = 5000
      ∧ (4000 : Int) ≠ 5000 := by
  refine ⟨?_, by decide, by decide⟩
  rfl

/-- C2 witness: the concrete case of the spec, `low = 0`, `high = 100000`,
computed start `98000 = max 0 98000`, via the amended theorem. -/
theorem C2_newest_start_clamped_witness :
    (ensureAssigned none (fun _ => (0, 100000)) engNewest).1.assignment
      = [(3, StartPos.offset 98000)] := by
  have h := C2_newest_start_clamped none (fun _ => (0, 100000)) engNewest [3]
    0 100000 rfl (by decide) rfl (fun _ => rfl) (by decide) (by decide)
  simpa using h

/-! ## C1 — empty batch condition -/

/-- C1 (amended): `consume_next` on a configured (assigned) engine returns
an empty batch whenever every plan partition is done and every buffer is
empty at the time of the call.  (The converse direction of the claim fails:
an idle source can exhaust the poll budget and yield an empty batch while
partitions are still pending, see the counterexample.) -/
theorem C1_empty_when_done_and_drained
    (meta : Option (List Int)) (wm : Int → Int × Int) (env : ReadEnv)
    (e : Engine) (limit : Nat) (trace : List PollItem)
    (ha : e.assigned = true)
    (hd : allDone e.partitions e.done = true)
    (hb : (e.buffers.any fun q => ¬ q.2.isEmpty) = false) :
    (consumeNext meta wm env e limit trace).2 = .ok [] := by
  have h1 : ensureAssigned meta wm e = (e, .ok ()) := by
    unfold ensureAssigned
    rw [ha]
    simp
  have h2 : allDone e.partitions e.done = true
      ∧ ¬ (e.buffers.any fun q => ¬ q.2.isEmpty) = true := by
    exact ⟨hd, by rw [hb]; simp⟩
  unfold consumeNext
  rw [h1]
  simp only [if_pos h2]

/-- An assigned engine over partition 0 with window end 5, nothing done,
nothing buffered. -/
def engPending : Engine :=
  { config := { messageType := .json, partition := some "0", startOffset := none
                startFrom := none, protoSchemaPath := none, protoMessageFullName := none }
    protoDecoder := none, assigned := true, endOffsets := [(0, 5)]
    partitions := [0], done := [], buffers := [], assignment := [] }

/-- C1 counterexample: on `engPending` (partition 0 not done) an idle source
makes `consume_next` return an empty batch, so "empty iff all done and all
buffers empty" fails in the only-if direction. -/
theorem C1_counterexample :
    (consumeNext (some [0]) (fun _ => (0, 5)) cEnv engPending 10
        (List.replicate 20 .idle)).2 = .ok []
      ∧ allDone engPending.partitions engPending.done = false := by
  exact ⟨rfl, by decide⟩

/-- An assigned engine whose only partition is done with drained buffers. -/
def engDrained : Engine :=
  { config := { messageType := .json, partition := some "0", startOffset := none
                startFrom := none, protoSchemaPath := none, protoMessageFullName := none }
    protoDecoder := none, assigned := true, endOffsets := [(0, 5)]
    partitions := [0], done := [0], buffers := [(0, [])], assignment := [] }

/-- C1 witness: the amended theorem applied to `engDrained`. -/
theorem C1_empty_when_done_and_drained_witness :
    (consumeNext (some [0]) (fun _ => (0, 5)) cEnv engDrained 10 []).2 = .ok [] :=
  C1_empty_when_done_and_drained (some [0]) (fun _ => (0, 5)) cEnv engDrained 10 []
    rfl (by decide) (by decide)

/-! ## C3 — decoder view order -/

/-- A resolver accepting every message name. -/
def rTrue : String → Bool := fun _ => true

/-- A parse function accepting the 0x0A-repaired buffer of
`[1,0,0,0,2,9,9]` (as "R") and the gRPC slice `[9,9]` (as "G"). -/
def pfC3 : String → Bytes → Option String := fun _ b =>
  if b = 10 :: [1, 0, 0, 0, 2, 9, 9] then some "R"
  else if b = [9, 9] then some "G" else none

/-- C3 counterexample: on payload `[1,0,0,0,2,9,9]` the decoder returns the
parse of the repaired (0x0A-prepended) buffer even though the gRPC-frame
view `[9,9]` — one of the claim's "ordered candidate views" — also parses:
the repair is attempted second, not only after every view fails. -/
theorem C3_counterexample :
    protoDecode rTrue pfC3 (some "M") [] [1, 0, 0, 0, 2, 9, 9] = .ok "R"
      ∧ [9, 9] ∈ grpcViews [1, 0, 0, 0, 2, 9, 9]
      ∧ pfC3 "M" [9, 9] = some "G"
      ∧ ("R" : String) ≠ "G" := by
  exact ⟨rfl, by decide, by decide, by decide⟩

/-- C3 (amended): the candidate views are tried in the order raw payload,
0x0A-repaired buffer, Confluent-envelope slices, gRPC-frame slice, bare
varint-length slice — the repair comes second, immediately after the raw
view; the first view that parses is accepted (in particular a parse of the
raw payload wins), and when no view parses for any tried name the caller
returns the raw UTF-8 text with `decoding_error` set. -/
theorem C3_views_and_fallback :
    (∀ payload : Bytes, buildViews payload
        = payload :: (10 :: payload)
            :: (confluentViews payload ++ grpcViews payload ++ bareVarintViews payload))
      ∧ (∀ (resolves : String → Bool) (parse : String → Bytes → Option String)
           (name : String) (cands : List String) (payload : Bytes) (j : String),
           resolves name = true → parse name payload = some j →
           protoDecode resolves parse (some name) cands payload = .ok j)
      ∧ (∀ (utf8Lossy : Bytes → String) (resolves : String → Bool)
           (parse : String → Bytes → Option String) (pd : DecoderModel)
           (key : Option Bytes) (bytes : Bytes),
           protoDecode resolves parse pd.messageFullName pd.candidates bytes = .error () →
           kafkaDecode utf8Lossy resolves parse .protobuf (some pd) key (some bytes)
             = ((key.map utf8Lossy).getD "", utf8Lossy bytes, some "Protobuf decode error")) := by
  refine ⟨?_, ?_, ?_⟩
  · intro payload
    simp [buildViews]
  · intro resolves parse name cands payload j hres hparse
    unfold protoDecode tryWithName
    simp [buildViews, hres, hparse]
  · intro utf8Lossy resolves parse pd key bytes hfail
    unfold kafkaDecode
    simp [hfail]

/-- C3 witness: the amended theorem applied at a concrete parse accepting
the raw view. -/
theorem C3_views_and_fallback_witness :
    protoDecode rTrue (fun _ b => if b = [7] then some "J" else none)
      (some "M") [] [7] = .ok "J" :=
  C3_views_and_fallback.2.1 rTrue (fun _ b => if b = [7] then some "J" else none)
    "M" [] [7] "J" rfl (by decide)

/-! ## C6 — protobuf schema requirements -/

/-- A parse function accepting only message name "A" on payload `[7]`. -/
def pfA : String → Bytes → Option String := fun n b =>
  if n = "A" ∧ b = [7] then some "JA" else none

/-- C6 counterexample: decoding succeeds with no selected message name at
all (the selected full name is optional), and with a selected name that
fails to parse the decoder falls back to guessing the candidate message
types of the descriptor set. -/
theorem C6_counterexample :
    protoDecode rTrue pfA none ["A"] [7] = .ok "JA"
      ∧ pfA "B" [7] = none
      ∧ protoDecode rTrue pfA (some "B") ["A"] [7] = .ok "JA" := by
  exact ⟨rfl, by decide, rfl⟩

/-- C6 (amended): in protobuf mode a schema path is required — engine
construction fails with an error when it is missing — but a selected
message full name is not: decoding tries the selected name first (over all
views) and, when it is absent or fails to parse, falls back to trying every
candidate message name from the descriptor set in order. -/
theorem C6_schema_required_name_optional :
    (∀ (initDecoder : String → Option String → Except String DecoderModel)
       (cfg : KConfig), cfg.messageType = .protobuf → cfg.protoSchemaPath = none →
       kafkaNew initDecoder cfg
         = .error "Protobuf message_type selected but no proto_schema_path provided")
      ∧ (∀ (resolves : String → Bool) (parse : String → Bytes → Option String)
           (name : String) (cands : List String) (payload : Bytes) (j : String),
           tryWithName resolves parse (buildViews payload) name = some j →
           protoDecode resolves parse (some name) cands payload = .ok j)
      ∧ (∀ (resolves : String → Bool) (parse : String → Bytes → Option String)
           (name : String) (cands : List String) (payload : Bytes) (j : String),
           tryWithName resolves parse (buildViews payload) name = none →
           cands.findSome? (tryWithName resolves parse (buildViews payload)) = some j →
           protoDecode resolves parse (some name) cands payload = .ok j)
      ∧ (∀ (resolves : String → Bool) (parse : String → Bytes → Option String)
           (cands : List String) (payload : Bytes) (j : String),
           cands.findSome? (tryWithName resolves parse (buildViews payload)) = some j →
           protoDecode resolves parse none cands payload = .ok j) := by
  refine ⟨?_, ?_, ?_, ?_⟩
  · intro initDecoder cfg hmt hpath
    unfold kafkaNew kafkaNewDecoder
    rw [hmt, hpath]
  · intro resolves parse name cands payload j hsel
    simp [protoDecode, hsel]
  · intro resolves parse name cands payload j hsel hcand
    simp [protoDecode, hsel, hcand]
  · intro resolves parse cands payload j hcand
    simp [protoDecode, hcand]

/-- C6 witness: the amended theorem applied at a protobuf configuration
without a schema path, and at the concrete fallback decode. -/
theorem C6_schema_required_name_optional_witness :
    kafkaNew (fun _ sel => .ok { messageFullName := sel, candidates := [] })
        { messageType := .protobuf, partition := none, startOffset := none
          startFrom := none, protoSchemaPath := none, protoMessageFullName := none }
      = .error "Protobuf message_type selected but no proto_schema_path provided"
      ∧ protoDecode rTrue pfA none ["A"] [7] = .ok "JA" :=
  ⟨C6_schema_required_name_optional.1 _ _ rfl rfl,
   C6_schema_required_name_optional.2.2.2 rTrue pfA ["A"] [7] "JA" (by decide)⟩

/-! ## C10 — partitions absent from the snapshot -/

/-- C10 (amended): a polled record whose partition is absent from the
snapshot `end_offsets` map gets window end `i64::MAX`; provided its offset
is below `i64::MAX - 1` it is decoded and emitted — collected by the
sequential reader, buffered by the buffering loops, emitted by the filtered
runner when the predicates pass — and its partition is not marked done.
(At offset exactly `i64::MAX - 1` it is still emitted but the partition is
marked done, see the counterexample.) -/
theorem C10_missing_partition_window :
    (∀ (env : ReadEnv) (ends : List (Int × Int)) (parts : List Int) (limit : Nat)
       (r : RawRecord) (st : RState) (idle : Nat) (collected : List BufEntry),
       ends.lookup r.partition = none → r.offset < i64Max - 1 →
       collected.length < limit → idle < 20 →
       seqOldestLoop env ends parts limit [.msg r] st idle collected
         = (collected ++ [mkUi env r], st, []))
      ∧ (∀ (env : ReadEnv) (ends : List (Int × Int)) (st : RState) (r : RawRecord),
         ends.lookup r.partition = none → r.offset < i64Max - 1 →
         bufferPolled env ends st r
           = { st with buffers := bufPush st.buffers r.partition (mkUi env r) })
      ∧ (∀ (env : ReadEnv) (parseJson : List Char → Option Json)
           (ends : List (Int × Int)) (parts : List Int) (limit : Nat)
           (kf mf : Option String) (mode : FilterMode) (cancel : Nat → Bool)
           (r : RawRecord) (iter : Nat) (doneParts : List Int) (emitted : Nat)
           (events : List FEvent),
           cancel iter = false → cancel (iter + 1) = false →
           allDone parts doneParts = false →
           ends.lookup r.partition = none → r.offset < i64Max - 1 →
           emitted + 1 < limit →
           filteredLoop env parseJson ends parts limit kf mf mode cancel
               [.msg r] iter doneParts emitted events
             = (events ++
                 (if passFilters parseJson mode kf mf (env.decode r.key r.payload).1
                      (env.decode r.key r.payload).2.1 then
                    [.message
                      { id := toString r.partition ++ "-" ++ toString r.offset
                        partition := r.partition
                        key := (env.decode r.key r.payload).1
                        offset := r.offset
                        message := (env.decode r.key r.payload).2.1
                        timestamp := (tsRender env.fmtMs r.timestamp).2
                        decodingError := (env.decode r.key r.payload).2.2 }]
                  else []),
                doneParts)) := by
  refine ⟨?_, ?_, ?_⟩
  · intro env ends parts limit r st idle collected hlk hoff hlen hidle
    unfold seqOldestLoop
    rw [if_pos ⟨hlen, hidle⟩]
    simp only [endOf, hlk, Option.getD_none]
    rw [if_neg (by omega), if_neg (by omega)]
    unfold seqOldestLoop
    split
    · rfl
    · rfl
  · intro env ends st r hlk hoff
    unfold bufferPolled
    simp only [endOf, hlk, Option.getD_none]
    rw [if_neg (by omega), if_neg (by omega)]
  · intro env parseJson ends parts limit kf mf mode cancel r iter doneParts emitted
      events hc1 hc2 hnd hlk hoff hlim
    unfold filteredLoop
    rw [hc1]
    simp only [Bool.false_eq_true, if_false, hnd]
    rw [if_neg (by simp)]
    simp only [endOf, hlk, Option.getD_none]
    rw [if_neg (by omega)]
    by_cases hp : passFilters parseJson mode kf mf (env.decode r.key r.payload).1
        (env.decode r.key r.payload).2.1 = true
    · rw [if_pos hp, if_pos hp, if_pos hp]
      rw [if_neg (by simp; omega)]
      rw [if_neg (by omega)]
      unfold filteredLoop
      rw [hc2]
      simp only [Bool.false_eq_true, if_false, hnd]
      rw [if_neg (by simp)]
    · rw [if_neg hp, if_neg hp, if_neg hp]
      rw [if_neg (by simp [hp])]
      rw [if_neg (by omega)]
      unfold filteredLoop
      rw [hc2]
      simp only [Bool.false_eq_true, if_false, hnd, List.append_nil]
      rw [if_neg (by simp)]

/-- The record at the done-marking edge: partition 3 (absent from the ends
map), offset `i64::MAX - 1`. -/
def rEdge : RawRecord :=
  { partition := 3, offset := i64Max - 1, key := none, payload := none
    timestamp := .notAvailable }

/-- C10 counterexample: a record of an absent partition with offset
`i64::MAX - 1` is buffered (emitted) but its partition IS marked done,
refuting "that partition is never marked done". -/
theorem C10_counterexample :
    ([] : List (Int × Int)).lookup rEdge.partition = none
      ∧ (bufferPolled cEnv [] { done := [], buffers := [] } rEdge).done = [3]
      ∧ totalBuf (bufferPolled cEnv [] { done := [], buffers := [] } rEdge).buffers = 1 := by
  exact ⟨rfl, rfl, rfl⟩

/-- A record of an absent partition with a small offset. -/
def rFree : RawRecord :=
  { partition := 3, offset := 41, key := none, payload := none
    timestamp := .notAvailable }

/-- C10 witness: the amended theorem applied to `rFree`. -/
theorem C10_missing_partition_window_witness :
    bufferPolled cEnv [] { done := [], buffers := [] } rFree
      = { done := [], buffers := bufPush [] rFree.partition (mkUi cEnv rFree) } :=
  C10_missing_partition_window.2.1 cEnv [] { done := [], buffers := [] } rFree
    rfl (by decide)

/-! ## C8 — unassigned states are empty -/

/-- Every `ensure_assigned` call leaves the assigned flag set (the `swap`
sets it even when planning subsequently fails). -/
theorem ensureAssigned_assigned (meta : Option (List Int)) (wm : Int → Int × Int)
    (e : Engine) : (ensureAssigned meta wm e).1.assigned = true := by
  unfold ensureAssigned
  by_cases h : e.assigned
  · simp [h]
  · simp only [h, Bool.false_eq_true, if_false]
    split <;> rfl

/-- `consume_next` always leaves the assigned flag set. -/
theorem consumeNext_assigned (meta : Option (List Int)) (wm : Int → Int × Int)
    (env : ReadEnv) (e : Engine) (limit : Nat) (trace : List PollItem) :
    (consumeNext meta wm env e limit trace).1.assigned = true := by
  unfold consumeNext
  have h := ensureAssigned_assigned meta wm e
  rcases heq : ensureAssigned meta wm e with ⟨e1, res⟩
  rw [heq] at h
  cases res with
  | error s => simpa using h
  | ok u =>
    cases u
    dsimp only
    split
    · simpa using h
    · simpa using h

/-- The state reached through a successful `Kafka::new`. -/
theorem kafkaNew_ok_state (initD : String → Option String → Except String DecoderModel)
    (cfg : KConfig) (e : Engine) (h : kafkaNew initD cfg = .ok e) :
    e.assigned = false ∧ e.done = [] ∧ e.buffers = [] := by
  unfold kafkaNew at h
  rcases h2 : kafkaNewDecoder initD cfg with s | pd
  · rw [h2] at h
    cases h
  · rw [h2] at h
    cases h
    exact ⟨rfl, rfl, rfl⟩

/-- C8: in every reachable engine state with `assigned = false` the done set
and the buffers are empty; and `apply_filters_mut` leaves the engine — on
the success and on the failed-`assign` exit path alike — with
`assigned = false` and the snapshot, partitions, done set, buffers and
consumer assignment all cleared. -/
theorem C8_unassigned_empty :
    (∀ e, Reachable e → e.assigned = false → e.done = [] ∧ e.buffers = [])
      ∧ (∀ (assignOk : Bool) (e : Engine) (p : Option String) (so : Option Int)
           (sf : Option String),
           (applyFiltersMut assignOk e p so sf).1.assigned = false
             ∧ (applyFiltersMut assignOk e p so sf).1.endOffsets = []
             ∧ (applyFiltersMut assignOk e p so sf).1.partitions = []
             ∧ (applyFiltersMut assignOk e p so sf).1.done = []
             ∧ (applyFiltersMut assignOk e p so sf).1.buffers = []
             ∧ (applyFiltersMut assignOk e p so sf).1.assignment = []) := by
  constructor
  · intro e hr
    induction hr with
    | new initD cfg e h =>
      intro _
      have h2 := kafkaNew_ok_state initD cfg e h
      exact ⟨h2.2.1, h2.2.2⟩
    | applyF e ok p so sf hr ih =>
      intro _
      exact ⟨rfl, rfl⟩
    | ensureA e meta wm hr ih =>
      intro hf
      rw [ensureAssigned_assigned] at hf
      cases hf
    | consume e meta wm env limit trace hr ih =>
      intro hf
      rw [consumeNext_assigned] at hf
      cases hf
  · intro assignOk e p so sf
    exact ⟨rfl, rfl, rfl, rfl, rfl, rfl⟩

/-- C8 witness: the invariant applied to the engine freshly constructed
from the newest-start configuration. -/
theorem C8_unassigned_empty_witness :
    engNewest.done = [] ∧ engNewest.buffers = [] :=
  C8_unassigned_empty.1 engNewest
    (Reachable.new (fun _ _ => .error "unused") cfgNewest engNewest rfl) rfl

/-! ## C9 — the tiny jq evaluator -/

/-- A serde_json stand-in for the concrete instances, parsing the only
literal they use. -/
def cParse : List Char → Option Json := fun s =>
  if s = ['1'] then some (Json.num 1) else none

/-- C9: the evaluator satisfies, for every JSON value: `"true"` is always
true; a trimmed path-only expression (no `==`) is true iff the value
resolved at the path is JSON `true`, and a missing key or out-of-range
index is no-match (false); an `l == r` expression compares the value at
the left path — erring (no-match) when unresolved — with the right literal
parsed as JSON first and otherwise quote-stripped as a string; anything
else errs as unsupported; and concretely `eval_jq(".a", {"a": true})` and
`eval_jq(".a == 1", {"a": 1})` are both true. -/
theorem C9_eval_jq :
    (∀ (parse : List Char → Option Json) (v : Json),
       evalJq parse "true".toList v = .ok true)
      ∧ (∀ (parse : List Char → Option Json) (v : Json) (p : List Char),
           trimList p = p → findSub p ['=', '='] = none → p.head? = some '.' →
           ((evalJq parse p v = .ok true ↔ jsonPathGet v p = some (Json.bool true))
             ∧ (jsonPathGet v p = none → evalJq parse p v = .ok false)))
      ∧ (∀ (parse : List Char → Option Json) (v : Json) (l r : List Char),
           trimList (l ++ '=' :: '=' :: r) = l ++ '=' :: '=' :: r →
           findSub (l ++ '=' :: '=' :: r) ['=', '='] = some l.length →
           evalJq parse (l ++ '=' :: '=' :: r) v
             = match jsonPathGet v (trimList l) with
               | none => .error "jq path not found"
               | some lv =>
                 .ok (decide (lv =
                   match parse (trimList (trimStartMatchesEq r)) with
                   | some rv => rv
                   | none => .str (stripQuotes (trimList (trimList (trimStartMatchesEq r)))))))
      ∧ (∀ (parse : List Char → Option Json) (v : Json) (p : List Char),
           trimList p = p → p ≠ "true".toList → findSub p ['=', '='] = none →
           p.head? ≠ some '.' →
           evalJq parse p v = .error "unsupported jq expression")
      ∧ evalJq cParse ".a".toList (Json.obj (.cons ['a'] (Json.bool true) .nil)) = .ok true
      ∧ evalJq cParse ".a == 1".toList (Json.obj (.cons ['a'] (Json.num 1) .nil)) = .ok true := by
  refine ⟨?_, ?_, ?_, ?_, by rfl, by rfl⟩
  · intro parse v
    rfl
  · intro parse v p htrim hfind hhead
    have hne : p ≠ "true".toList := by
      intro hEq
      rw [hEq] at hhead
      exact absurd hhead (by decide)
    have hbase : evalJq parse p v
        = (match jsonPathGet v p with
           | some jv => .ok (decide (jv = Json.bool true))
           | none => .ok false) := by
      unfold evalJq
      rw [htrim, if_neg hne, hfind]
      dsimp only
      rw [if_pos hhead]
    rcases hjp : jsonPathGet v p with _ | jv
    · rw [hjp] at hbase
      exact ⟨by rw [hbase]; simp, fun _ => hbase⟩
    · rw [hjp] at hbase
      refine ⟨?_, by intro h; cases h⟩
      rw [hbase]
      by_cases hb : jv = Json.bool true
      · simp [hb]
      · simp [hb]
  · intro parse v l r htrim hfind
    have hne : l ++ '=' :: '=' :: r ≠ "true".toList := by
      intro hEq
      have hnone : findSub "true".toList ['=', '='] = none := by decide
      rw [hEq, hnone] at hfind
      cases hfind
    unfold evalJq
    rw [htrim, if_neg hne, hfind]
    dsimp only
    rw [List.take_left, List.drop_left]
    rfl
  · intro parse v p htrim hne hfind hhead
    unfold evalJq
    rw [htrim, if_neg hne, hfind]
    dsimp only
    rw [if_neg hhead]

/-- C9 witness: the universal clauses applied at concrete inputs —
`eval_jq(".missing", {}) == false` and an unsupported expression. -/
theorem C9_eval_jq_witness :
    evalJq cParse ".missing".toList (Json.obj .nil) = .ok false
      ∧ evalJq cParse "nope".toList Json.null = .error "unsupported jq expression" :=
  ⟨(C9_eval_jq.2.1 cParse (Json.obj .nil) ".missing".toList (by decide) (by decide)
      (by decide)).2 (by rfl),
   C9_eval_jq.2.2.2.1 cParse Json.null "nope".toList (by decide) (by decide)
     (by decide) (by decide)⟩

/-! ## Buffer membership infrastructure

Supporting lemmas tracking which `(ts_ms, UiMessage)` pairs the buffer
operations can contain and emit. -/

/-- Membership of a buffered pair in some queue of the buffer map. -/
def MemBuf (bufs : Buffers) (x : BufEntry) : Prop := ∃ e ∈ bufs, x ∈ e.2

theorem memBuf_of_lookup {bufs : Buffers} {p : Int} {q : List BufEntry} {x : BufEntry}
    (hl : bufs.lookup p = some q) (hx : x ∈ q) : MemBuf bufs x := by
  rw [List.lookup_eq_some_iff] at hl
  obtain ⟨l1, l2, heq, -⟩ := hl
  exact ⟨(p, q), by rw [heq]; simp, hx⟩

theorem memBuf_bufPush {bufs : Buffers} {p : Int} {item x : BufEntry}
    (h : MemBuf (bufPush bufs p item) x) : MemBuf bufs x ∨ x = item := by
  unfold bufPush at h
  rcases hl : bufs.lookup p with _ | q
  · rw [hl] at h
    obtain ⟨e, he, hx⟩ := h
    rcases List.mem_append.mp he with h1 | h2
    · exact .inl ⟨e, h1, hx⟩
    · simp only [List.mem_singleton] at h2
      subst h2
      simp only [List.mem_singleton] at hx
      exact .inr hx
  · rw [hl] at h
    obtain ⟨e, he, hx⟩ := h
    rw [List.mem_map] at he
    obtain ⟨e0, he0, heq⟩ := he
    by_cases hp : e0.1 = p
    · rw [if_pos hp] at heq
      subst heq
      simp only [List.mem_append, List.mem_singleton] at hx
      rcases hx with hx | hx
      · exact .inl ⟨e0, he0, hx⟩
      · exact .inr hx
    · rw [if_neg hp] at heq
      subst heq
      exact .inl ⟨e0, he0, hx⟩

theorem memBuf_ensureEntry {bufs : Buffers} {p : Int} {x : BufEntry}
    (h : MemBuf (ensureEntry bufs p) x) : MemBuf bufs x := by
  unfold ensureEntry at h
  rcases hl : bufs.lookup p with _ | q
  · rw [hl] at h
    obtain ⟨e, he, hx⟩ := h
    rcases List.mem_append.mp he with h1 | h2
    · exact ⟨e, h1, hx⟩
    · simp only [List.mem_singleton] at h2
      subst h2
      simp at hx
  · rw [hl] at h
    exact h

theorem memBuf_foldl_ensureEntry {x : BufEntry} :
    ∀ (ps : List Int) (bufs : Buffers),
    MemBuf (ps.foldl ensureEntry bufs) x → MemBuf bufs x := by
  intro ps
  induction ps with
  | nil => intro bufs h; exact h
  | cons p ps ih =>
    intro bufs h
    exact memBuf_ensureEntry (ih (ensureEntry bufs p) h)

theorem bufPopFront_fst_mem {bufs : Buffers} {p : Int} {x : BufEntry}
    (h : (bufPopFront bufs p).1 = some x) : MemBuf bufs x := by
  unfold bufPopFront at h
  rcases hl : bufs.lookup p with _ | q
  · rw [hl] at h; cases h
  · rcases q with _ | ⟨y, ys⟩
    · rw [hl] at h; cases h
    · rw [hl] at h
      simp only at h
      cases h
      exact memBuf_of_lookup hl (by simp)

theorem memBuf_bufPopFront_snd {bufs : Buffers} {p : Int} {x : BufEntry}
    (h : MemBuf (bufPopFront bufs p).2 x) : MemBuf bufs x := by
  unfold bufPopFront at h
  rcases hl : bufs.lookup p with _ | q
  · rw [hl] at h; exact h
  · rcases q with _ | ⟨y, ys⟩
    · rw [hl] at h; exact h
    · rw [hl] at h
      simp only at h
      obtain ⟨e, he, hx⟩ := h
      rw [List.mem_map] at he
      obtain ⟨e0, he0, heq⟩ := he
      by_cases hp : e0.1 = p
      · rw [if_pos hp] at heq
        subst heq
        simp only at hx
        exact memBuf_of_lookup hl (List.mem_cons_of_mem y hx)
      · rw [if_neg hp] at heq
        subst heq
        exact ⟨e0, he0, hx⟩

theorem bufPopBack_fst_mem {bufs : Buffers} {p : Int} {x : BufEntry}
    (h : (bufPopBack bufs p).1 = some x) : MemBuf bufs x := by
  unfold bufPopBack at h
  rcases hl : bufs.lookup p with _ | q
  · rw [hl] at h; cases h
  · rcases q with _ | ⟨y, ys⟩
    · rw [hl] at h; cases h
    · rw [hl] at h
      simp only at h
      exact memBuf_of_lookup hl (List.mem_of_mem_getLast? h)

theorem memBuf_bufPopBack_snd {bufs : Buffers} {p : Int} {x : BufEntry}
    (h : MemBuf (bufPopBack bufs p).2 x) : MemBuf bufs x := by
  unfold bufPopBack at h
  rcases hl : bufs.lookup p with _ | q
  · rw [hl] at h; exact h
  · rcases q with _ | ⟨y, ys⟩
    · rw [hl] at h; exact h
    · rw [hl] at h
      simp only at h
      obtain ⟨e, he, hx⟩ := h
      rw [List.mem_map] at he
      obtain ⟨e0, he0, heq⟩ := he
      by_cases hp : e0.1 = p
      · rw [if_pos hp] at heq
        subst heq
        simp only at hx
        exact memBuf_of_lookup hl ((List.dropLast_sublist (y :: ys)).mem hx)
      · rw [if_neg hp] at heq
        subst heq
        exact ⟨e0, he0, hx⟩

theorem memBuf_lookup_getD {bufs : Buffers} {p : Int} {x : BufEntry}
    (h : x ∈ (bufs.lookup p).getD []) : MemBuf bufs x := by
  rcases hl : bufs.lookup p with _ | q
  · rw [hl] at h; simp at h
  · rw [hl] at h
    exact memBuf_of_lookup hl h

/-! ## In-window messages -/

/-- A message that respects the snapshot window of its own partition. -/
def GoodUi (ends : List (Int × Int)) (ui : UiMessage) : Prop :=
  ∀ en, ends.lookup ui.partition = some en → ui.offset < en

theorem mkUi_good {env : ReadEnv} {ends : List (Int × Int)} {r : RawRecord}
    (h : r.offset < endOf ends r.partition) : GoodUi ends (mkUi env r).2 := by
  intro en hen
  have hp : (mkUi env r).2.partition = r.partition := rfl
  have ho : (mkUi env r).2.offset = r.offset := rfl
  rw [hp] at hen
  rw [ho]
  unfold endOf at h
  rw [hen] at h
  exact h

/-- All buffered messages are in-window. -/
def BufGood (ends : List (Int × Int)) (bufs : Buffers) : Prop :=
  ∀ x, MemBuf bufs x → GoodUi ends x.2

theorem bufferPolled_good {env : ReadEnv} {ends : List (Int × Int)} {st : RState}
    {r : RawRecord} (h : BufGood ends st.buffers) :
    BufGood ends (bufferPolled env ends st r).buffers := by
  unfold bufferPolled
  by_cases hskip : r.offset ≥ endOf ends r.partition
  · rw [if_pos hskip]
    exact h
  · rw [if_neg hskip]
    intro x hx
    have hx2 : MemBuf (bufPush st.buffers r.partition (mkUi env r)) x := by
      by_cases hmark : r.offset ≥ endOf ends r.partition - 1
      · rw [if_pos hmark] at hx; exact hx
      · rw [if_neg hmark] at hx; exact hx
    rcases memBuf_bufPush hx2 with hold | hnew
    · exact h x hold
    · rw [hnew]
      exact mkUi_good (by omega)

theorem bufferPolledHeap_good {env : ReadEnv} {ends : List (Int × Int)} {st : RState}
    {heap : List HEntry} {r : RawRecord} (h : BufGood ends st.buffers) :
    BufGood ends (bufferPolledHeap env ends st heap r).1.buffers := by
  unfold bufferPolledHeap
  by_cases hskip : r.offset ≥ endOf ends r.partition
  · rw [if_pos hskip]
    exact h
  · rw [if_neg hskip]
    intro x hx
    simp only at hx
    rcases memBuf_bufPush hx with hold | hnew
    · exact h x hold
    · rw [hnew]
      exact mkUi_good (by omega)

/-! ## Emission stays in-window, per loop -/

theorem seqOldestLoop_good {env : ReadEnv} {ends : List (Int × Int)} {parts : List Int}
    {limit : Nat} :
    ∀ (trace : List PollItem) (st : RState) (idle : Nat) (collected : List BufEntry),
    (∀ x ∈ collected, GoodUi ends x.2) →
    ∀ x ∈ (seqOldestLoop env ends parts limit trace st idle collected).1,
      GoodUi ends x.2 := by
  intro trace
  induction trace with
  | nil =>
    intro st idle collected h x hx
    unfold seqOldestLoop at hx
    split at hx
    · exact h x hx
    · exact h x hx
  | cons it rest ih =>
    intro st idle collected h x hx
    unfold seqOldestLoop at hx
    split at hx
    case isFalse => exact h x hx
    case isTrue hcond =>
      cases it with
      | idle => exact ih _ _ _ h x hx
      | errItem => exact ih _ _ _ h x hx
      | msg r =>
        dsimp only at hx
        by_cases hskip : r.offset ≥ endOf ends r.partition
        · rw [if_pos hskip] at hx
          split at hx
          · exact h x hx
          · exact ih _ _ _ h x hx
        · rw [if_neg hskip] at hx
          have h2 : ∀ y ∈ collected ++ [mkUi env r], GoodUi ends y.2 := by
            intro y hy
            rcases List.mem_append.mp hy with hy | hy
            · exact h y hy
            · simp only [List.mem_singleton] at hy
              rw [hy]
              exact mkUi_good (by omega)
          by_cases hmark : r.offset ≥ endOf ends r.partition - 1
          · rw [if_pos hmark] at hx
            split at hx
            · exact h2 x hx
            · exact ih _ _ _ h2 x hx
          · rw [if_neg hmark] at hx
            exact ih _ _ _ h2 x hx

theorem consumeSeqOldest_good {env : ReadEnv} {ends : List (Int × Int)}
    {parts : List Int} {limit : Nat} {trace : List PollItem} {st : RState} :
    ∀ x ∈ (consumeSeqOldest env ends parts limit trace st).1, GoodUi ends x.2 := by
  intro x hx
  unfold consumeSeqOldest sortByTs at hx
  dsimp only at hx
  rw [(List.perm_insertionSort _ _).mem_iff] at hx
  exact seqOldestLoop_good trace st 0 [] (by simp) x hx

theorem seqNewestPrefill_good {env : ReadEnv} {ends : List (Int × Int)}
    {parts : List Int} :
    ∀ (trace : List PollItem) (st : RState) (idle : Nat),
    BufGood ends st.buffers →
    BufGood ends (seqNewestPrefill env ends parts trace st idle).1.buffers := by
  intro trace
  induction trace with
  | nil =>
    intro st idle h
    unfold seqNewestPrefill
    dsimp only
    by_cases h1 : (parts.filter fun p => decide (p ∉ st.done)).isEmpty = true
    · rw [if_pos h1]; exact h
    · rw [if_neg h1]
      by_cases h2 : idle ≥ 20
      · rw [if_pos h2]; exact h
      · rw [if_neg h2]; exact h
  | cons it rest ih =>
    intro st idle h
    unfold seqNewestPrefill
    dsimp only
    by_cases h1 : (parts.filter fun p => decide (p ∉ st.done)).isEmpty = true
    · rw [if_pos h1]; exact h
    · rw [if_neg h1]
      by_cases h2 : idle ≥ 20
      · rw [if_pos h2]; exact h
      · rw [if_neg h2]
        cases it with
        | idle => exact ih _ _ h
        | errItem => exact ih _ _ h
        | msg r => exact ih _ _ (bufferPolled_good h)

theorem mergeNewestPrefill_good {env : ReadEnv} {ends : List (Int × Int)}
    {parts : List Int} :
    ∀ (trace : List PollItem) (st : RState) (idle : Nat),
    BufGood ends st.buffers →
    BufGood ends (mergeNewestPrefill env ends parts trace st idle).1.buffers := by
  intro trace
  induction trace with
  | nil =>
    intro st idle h
    unfold mergeNewestPrefill
    by_cases h1 : allDone parts st.done = true
    · rw [if_pos h1]; exact h
    · rw [if_neg h1]
      by_cases h2 : idle ≥ 40
      · rw [if_pos h2]; exact h
      · rw [if_neg h2]; exact h
  | cons it rest ih =>
    intro st idle h
    unfold mergeNewestPrefill
    by_cases h1 : allDone parts st.done = true
    · rw [if_pos h1]; exact h
    · rw [if_neg h1]
      by_cases h2 : idle ≥ 40
      · rw [if_pos h2]; exact h
      · rw [if_neg h2]
        cases it with
        | idle => exact ih _ _ h
        | errItem => exact ih _ _ h
        | msg r => exact ih _ _ (bufferPolled_good h)

theorem emitTailsLoop_good {ends : List (Int × Int)} {limit : Nat} :
    ∀ (fuel : Nat) (heap : List HEntry) (bufs : Buffers) (out : List BufEntry),
    BufGood ends bufs → (∀ x ∈ out, GoodUi ends x.2) →
    ∀ x ∈ (emitTailsLoop limit fuel heap bufs out).1, GoodUi ends x.2 := by
  intro fuel
  induction fuel with
  | zero => intro heap bufs out _ hout x hx; exact hout x hx
  | succ fuel ih =>
    intro heap bufs out hb hout x hx
    unfold emitTailsLoop at hx
    split at hx
    case isFalse => exact hout x hx
    case isTrue =>
      rcases hmax : heapMax heap with _ | entry
      · rw [hmax] at hx
        exact hout x hx
      · rw [hmax] at hx
        dsimp only at hx
        rcases hpop : (bufPopBack bufs entry.2).1 with _ | item
        · rw [hpop] at hx
          exact ih _ _ _ (fun y hy => hb y (memBuf_bufPopBack_snd hy)) hout x hx
        · rw [hpop] at hx
          have hitem : GoodUi ends item.2 := hb item (bufPopBack_fst_mem hpop)
          have hout2 : ∀ y ∈ out ++ [item], GoodUi ends y.2 := by
            intro y hy
            rcases List.mem_append.mp hy with hy | hy
            · exact hout y hy
            · simp only [List.mem_singleton] at hy
              rw [hy]
              exact hitem
          rcases htail : ((bufPopBack bufs entry.2).2.lookup entry.2).bind
              (fun q => (q.getLast?).map fun it => ((it.1, entry.2, it.2.offset), entry.2))
            with _ | e2
          · rw [htail] at hx
            exact ih _ _ _ (fun y hy => hb y (memBuf_bufPopBack_snd hy)) hout2 x hx
          · rw [htail] at hx
            exact ih _ _ _ (fun y hy => hb y (memBuf_bufPopBack_snd hy)) hout2 x hx

theorem emitTails_good {ends : List (Int × Int)} {limit : Nat} {bufs : Buffers}
    (hb : BufGood ends bufs) :
    ∀ x ∈ (emitTails limit bufs).1, GoodUi ends x.2 := by
  intro x hx
  unfold emitTails at hx
  exact emitTailsLoop_good _ _ _ _ hb (by simp) x hx

theorem fillHeadsLoop_good {env : ReadEnv} {ends : List (Int × Int)} {parts : List Int} :
    ∀ (trace : List PollItem) (st : RState) (idle : Nat),
    BufGood ends st.buffers →
    BufGood ends (fillHeadsLoop env ends parts trace st idle).1.buffers := by
  intro trace
  induction trace with
  | nil =>
    intro st idle h
    unfold fillHeadsLoop
    dsimp only
    have h1 : BufGood ends
        (List.foldl ensureEntry st.buffers (parts.filter fun p => decide (p ∉ st.done))) :=
      fun x hx => h x (memBuf_foldl_ensureEntry _ _ hx)
    split
    · exact h1
    · split
      · exact h1
      · exact h1
  | cons it rest ih =>
    intro st idle h
    unfold fillHeadsLoop
    dsimp only
    have h1 : BufGood ends
        (List.foldl ensureEntry st.buffers (parts.filter fun p => decide (p ∉ st.done))) :=
      fun x hx => h x (memBuf_foldl_ensureEntry _ _ hx)
    split
    · exact h1
    · split
      · exact h1
      · cases it with
        | idle => exact ih _ _ h1
        | errItem => exact ih _ _ h1
        | msg r => exact ih _ _ (bufferPolled_good h1)

theorem refillLoop_good {env : ReadEnv} {ends : List (Int × Int)} {pickP : Int} :
    ∀ (trace : List PollItem) (localIdle : Nat) (st : RState) (heap : List HEntry),
    BufGood ends st.buffers →
    BufGood ends (refillLoop env ends pickP trace localIdle st heap).1.buffers := by
  intro trace
  induction trace with
  | nil =>
    intro localIdle st heap h
    unfold refillLoop
    dsimp only
    split
    · exact h
    · split
      · exact h
      · split
        · exact h
        · exact h
  | cons it rest ih =>
    intro localIdle st heap h
    unfold refillLoop
    dsimp only
    split
    · exact h
    · split
      · exact h
      · split
        · exact h
        · cases it with
          | idle => exact ih _ _ _ h
          | errItem => exact ih _ _ _ h
          | msg r =>
            dsimp only
            split
            · exact ih _ _ _ (bufferPolledHeap_good h)
            · split
              · exact bufferPolledHeap_good h
              · exact ih _ _ _ (bufferPolledHeap_good h)

theorem mergeOldestLoop_good {env : ReadEnv} {ends : List (Int × Int)} {limit : Nat} :
    ∀ (fuel : Nat) (trace : List PollItem) (st : RState) (heap : List HEntry)
      (idle : Nat) (out : List BufEntry),
    BufGood ends st.buffers → (∀ x ∈ out, GoodUi ends x.2) →
    ∀ x ∈ (mergeOldestLoop env ends limit fuel trace st heap idle out).1,
      GoodUi ends x.2 := by
  intro fuel
  induction fuel with
  | zero => intro trace st heap idle out _ hout x hx; exact hout x hx
  | succ fuel ih =>
    intro trace st heap idle out hb hout x hx
    unfold mergeOldestLoop at hx
    split at hx
    case isFalse => exact hout x hx
    case isTrue =>
      rcases hmin : heapMin heap with _ | entry
      · rw [hmin] at hx
        dsimp only at hx
        split at hx
        · exact hout x hx
        · cases trace with
          | nil => exact hout x hx
          | cons it rest =>
            cases it with
            | idle => exact ih _ _ _ _ _ hb hout x hx
            | errItem => exact ih _ _ _ _ _ hb hout x hx
            | msg r =>
              dsimp only at hx
              exact ih _ _ _ _ _ (bufferPolledHeap_good hb) hout x hx
      · rw [hmin] at hx
        dsimp only at hx
        rcases hpop : (bufPopFront st.buffers entry.2).1 with _ | item
        · rw [hpop] at hx
          exact ih _ _ _ _ _ (fun y hy => hb y (memBuf_bufPopFront_snd hy)) hout x hx
        · rw [hpop] at hx
          dsimp only at hx
          have hb' : BufGood ends (bufPopFront st.buffers entry.2).2 :=
            fun y hy => hb y (memBuf_bufPopFront_snd hy)
          have hitem : GoodUi ends item.2 := hb item (bufPopFront_fst_mem hpop)
          have hout2 : ∀ y ∈ out ++ [item], GoodUi ends y.2 := by
            intro y hy
            rcases List.mem_append.mp hy with hy | hy
            · exact hout y hy
            · simp only [List.mem_singleton] at hy
              rw [hy]
              exact hitem
          by_cases hmark : item.2.offset ≥ endOf ends entry.2 - 1
          · rw [if_pos hmark] at hx
            split at hx
            · exact ih _ _ _ _ _ hb' hout2 x hx
            · exact ih _ _ _ _ _ (refillLoop_good _ _ _ _ hb') hout2 x hx
          · rw [if_neg hmark] at hx
            split at hx
            · exact ih _ _ _ _ _ hb' hout2 x hx
            · exact ih _ _ _ _ _ (refillLoop_good _ _ _ _ hb') hout2 x hx

theorem consumeMergeOldest_good {env : ReadEnv} {ends : List (Int × Int)}
    {parts : List Int} {limit : Nat} {trace : List PollItem} {st : RState}
    (hb : BufGood ends st.buffers) :
    ∀ x ∈ (consumeMergeOldest env ends parts limit trace st).1, GoodUi ends x.2 := by
  intro x hx
  unfold consumeMergeOldest at hx
  exact mergeOldestLoop_good _ _ _ _ _ _ (fillHeadsLoop_good trace st 0 hb) (by simp) x hx

theorem consumeSeqNewest_good {env : ReadEnv} {ends : List (Int × Int)}
    {parts : List Int} {limit : Nat} {trace : List PollItem} {st : RState}
    (hb : BufGood ends st.buffers) :
    ∀ x ∈ (consumeSeqNewest env ends parts limit trace st).1, GoodUi ends x.2 := by
  intro x hx
  unfold consumeSeqNewest at hx
  exact emitTails_good (seqNewestPrefill_good trace st 0 hb) x hx

theorem consumeMergeNewest_good {env : ReadEnv} {ends : List (Int × Int)}
    {parts : List Int} {limit : Nat} {trace : List PollItem} {st : RState}
    (hb : BufGood ends st.buffers) :
    ∀ x ∈ (consumeMergeNewest env ends parts limit trace st).1, GoodUi ends x.2 := by
  intro x hx
  unfold consumeMergeNewest at hx
  exact emitTails_good (mergeNewestPrefill_good trace st 0 hb) x hx

theorem filteredLoop_good {env : ReadEnv} {parseJson : List Char → Option Json}
    {ends : List (Int × Int)} {parts : List Int} {limit : Nat}
    {kf mf : Option String} {mode : FilterMode} {cancel : Nat → Bool} :
    ∀ (trace : List PollItem) (iter : Nat) (doneParts : List Int) (emitted : Nat)
      (events : List FEvent),
    (∀ ui, FEvent.message ui ∈ events → GoodUi ends ui) →
    ∀ ui, FEvent.message ui ∈ (filteredLoop env parseJson ends parts limit kf mf mode
        cancel trace iter doneParts emitted events).1 → GoodUi ends ui := by
  intro trace
  induction trace with
  | nil =>
    intro iter doneParts emitted events h ui hui
    unfold filteredLoop at hui
    split at hui
    · rcases List.mem_append.mp hui with h1 | h1
      · exact h ui h1
      · simp at h1
    · split at hui
      · rcases List.mem_append.mp hui with h1 | h1
        · exact h ui h1
        · simp at h1
      · exact h ui hui
  | cons it rest ih =>
    intro iter doneParts emitted events h ui hui
    unfold filteredLoop at hui
    split at hui
    · rcases List.mem_append.mp hui with h1 | h1
      · exact h ui h1
      · simp at h1
    · split at hui
      · rcases List.mem_append.mp hui with h1 | h1
        · exact h ui h1
        · simp at h1
      · cases it with
        | idle => exact ih _ _ _ _ h ui hui
        | errItem => exact ih _ _ _ _ h ui hui
        | msg r =>
          dsimp only at hui
          by_cases hskip : r.offset ≥ endOf ends r.partition
          · rw [if_pos hskip] at hui
            exact ih _ _ _ _ h ui hui
          · rw [if_neg hskip] at hui
            have hgood2 : ∀ ui', FEvent.message ui' ∈
                events ++ [FEvent.message
                  { id := toString r.partition ++ "-" ++ toString r.offset
                    partition := r.partition
                    key := (env.decode r.key r.payload).1
                    offset := r.offset
                    message := (env.decode r.key r.payload).2.1
                    timestamp := (tsRender env.fmtMs r.timestamp).2
                    decodingError := (env.decode r.key r.payload).2.2 }] →
                GoodUi ends ui' := by
              intro ui' hui'
              rcases List.mem_append.mp hui' with h1 | h1
              · exact h ui' h1
              · simp only [List.mem_singleton, FEvent.message.injEq] at h1
                subst h1
                intro en hen
                unfold endOf at hskip
                rw [hen] at hskip
                simp only [Option.getD_some] at hskip
                show r.offset < en
                omega
            by_cases hp : passFilters parseJson mode kf mf (env.decode r.key r.payload).1
                (env.decode r.key r.payload).2.1 = true
            · rw [if_pos hp, if_pos hp] at hui
              by_cases hlim : emitted + 1 ≥ limit
              · rw [if_pos ⟨hp, hlim⟩] at hui
                rcases List.mem_append.mp hui with h1 | h1
                · exact hgood2 ui h1
                · simp at h1
              · rw [if_neg (fun hc => hlim hc.2)] at hui
                exact ih _ _ _ _ hgood2 ui hui
            · rw [if_neg hp, if_neg hp] at hui
              rw [if_neg (fun hc => hp hc.1)] at hui
              exact ih _ _ _ _ h ui hui

/-! ## C7 — the snapshot window bounds every emission -/

/-- C7: (1) every message in a batch returned by `consume_next` — whatever
strategy the call dispatches to — has `offset < end_offsets[p]` for its
partition `p` whenever `p` is in the snapshot map, provided the records
already buffered respect the window (as all buffered records do, since
buffering is guarded the same way); (2) likewise for every message event of
the filtered streaming runner; (3) polling an out-of-window record only
marks its partition done, buffering nothing; (4) the sequential reader
skips such a record, marking the partition done without collecting it;
(5) buffering a record with `end - 1 ≤ offset < end` marks the partition
done after the record is buffered; (6) the sequential reader marks the
partition done after collecting such a record; (7) the filtered runner
skips an out-of-window record and marks its partition done. -/
theorem C7_window_bound :
    (∀ (meta : Option (List Int)) (wm : Int → Int × Int) (env : ReadEnv) (e : Engine)
       (limit : Nat) (trace : List PollItem) (msgs : List UiMessage),
       e.assigned = true → BufGood e.endOffsets e.buffers →
       (consumeNext meta wm env e limit trace).2 = .ok msgs →
       ∀ ui ∈ msgs, GoodUi e.endOffsets ui)
      ∧ (∀ (env : ReadEnv) (parseJson : List Char → Option Json)
           (ends : List (Int × Int)) (parts : List Int) (limit : Nat)
           (kf mf : Option String) (mode : FilterMode) (cancel : Nat → Bool)
           (trace : List PollItem) (iter : Nat) (doneParts : List Int) (emitted : Nat),
           ∀ ui, FEvent.message ui ∈ (filteredLoop env parseJson ends parts limit kf mf
               mode cancel trace iter doneParts emitted []).1 →
           GoodUi ends ui)
      ∧ (∀ (env : ReadEnv) (ends : List (Int × Int)) (st : RState) (r : RawRecord),
           r.offset ≥ endOf ends r.partition →
           bufferPolled env ends st r = { st with done := doneInsert st.done r.partition })
      ∧ (∀ (env : ReadEnv) (ends : List (Int × Int)) (parts : List Int) (limit : Nat)
           (r : RawRecord) (st : RState) (idle : Nat) (collected : List BufEntry),
           r.offset ≥ endOf ends r.partition →
           collected.length < limit → idle < 20 →
           seqOldestLoop env ends parts limit [.msg r] st idle collected
             = (collected, { st with done := doneInsert st.done r.partition }, []))
      ∧ (∀ (env : ReadEnv) (ends : List (Int × Int)) (st : RState) (r : RawRecord),
           endOf ends r.partition - 1 ≤ r.offset → r.offset < endOf ends r.partition →
           bufferPolled env ends st r
             = { done := doneInsert st.done r.partition
                 buffers := bufPush st.buffers r.partition (mkUi env r) })
      ∧ (∀ (env : ReadEnv) (ends : List (Int × Int)) (parts : List Int) (limit : Nat)
           (r : RawRecord) (st : RState) (idle : Nat) (collected : List BufEntry),
           endOf ends r.partition - 1 ≤ r.offset → r.offset < endOf ends r.partition →
           collected.length < limit → idle < 20 →
           seqOldestLoop env ends parts limit [.msg r] st idle collected
             = (collected ++ [mkUi env r],
                { st with done := doneInsert st.done r.partition }, []))
      ∧ (∀ (env : ReadEnv) (parseJson : List Char → Option Json)
           (ends : List (Int × Int)) (parts : List Int) (limit : Nat)
           (kf mf : Option String) (mode : FilterMode) (cancel : Nat → Bool)
           (r : RawRecord) (iter : Nat) (doneParts : List Int) (emitted : Nat)
           (events : List FEvent),
           cancel iter = false → cancel (iter + 1) = false →
           allDone parts doneParts = false →
           allDone parts (doneInsert doneParts r.partition) = false →
           r.offset ≥ endOf ends r.partition →
           filteredLoop env parseJson ends parts limit kf mf mode cancel
               [.msg r] iter doneParts emitted events
             = (events, doneInsert doneParts r.partition)) := by
  refine ⟨?_, ?_, ?_, ?_, ?_, ?_, ?_⟩
  · intro meta wm env e limit trace msgs ha hb hok ui hui
    have h1 : ensureAssigned meta wm e = (e, .ok ()) := by
      unfold ensureAssigned
      rw [ha]
      simp
    unfold consumeNext at hok
    rw [h1] at hok
    dsimp only at hok
    split at hok
    · cases hok
      simp at hui
    · split at hok <;> rename_i hsel
      · unfold consumeSequential at hok
        split at hok
        · cases hok
          rw [List.mem_map] at hui
          obtain ⟨x, hx, hxe⟩ := hui
          rw [← hxe]
          exact consumeSeqNewest_good hb x hx
        · cases hok
          rw [List.mem_map] at hui
          obtain ⟨x, hx, hxe⟩ := hui
          rw [← hxe]
          exact consumeSeqOldest_good x hx
      · unfold consumeMerge at hok
        split at hok
        · cases hok
          rw [List.mem_map] at hui
          obtain ⟨x, hx, hxe⟩ := hui
          rw [← hxe]
          exact consumeMergeNewest_good hb x hx
        · cases hok
          rw [List.mem_map] at hui
          obtain ⟨x, hx, hxe⟩ := hui
          rw [← hxe]
          exact consumeMergeOldest_good hb x hx
  · intro env parseJson ends parts limit kf mf mode cancel trace iter doneParts emitted
      ui hui
    exact filteredLoop_good trace iter doneParts emitted [] (by simp) ui hui
  · intro env ends st r hskip
    unfold bufferPolled
    rw [if_pos hskip]
  · intro env ends parts limit r st idle collected hskip hlen hidle
    unfold seqOldestLoop
    rw [if_pos ⟨hlen, hidle⟩]
    dsimp only
    rw [if_pos hskip]
    split
    · rfl
    · unfold seqOldestLoop
      split
      · rfl
      · rfl
  · intro env ends st r hmark hin
    unfold bufferPolled
    rw [if_neg (by omega), if_pos hmark]
  · intro env ends parts limit r st idle collected hmark hin hlen hidle
    unfold seqOldestLoop
    rw [if_pos ⟨hlen, hidle⟩]
    dsimp only
    rw [if_neg (by omega), if_pos hmark]
    split
    · rfl
    · unfold seqOldestLoop
      split
      · rfl
      · rfl
  · intro env parseJson ends parts limit kf mf mode cancel r iter doneParts emitted
      events hc1 hc2 hnd hnd2 hskip
    unfold filteredLoop
    rw [hc1]
    simp only [Bool.false_eq_true, if_false, hnd]
    rw [if_neg (by simp)]
    rw [if_pos hskip]
    unfold filteredLoop
    rw [hc2]
    simp only [Bool.false_eq_true, if_false, hnd2]
    rw [if_neg (by simp)]

theorem bufGood_nil {ends : List (Int × Int)} : BufGood ends ([] : Buffers) :=
  fun _ hx => absurd hx (by unfold MemBuf; simp)

/-- A record past the snapshot end of its partition. -/
def rPast : RawRecord :=
  { partition := 0, offset := 7, key := none, payload := none
    timestamp := .createTime 10 }

/-- C7 witness: the theorem applied at a concrete batch read (a record
below the window end of 5 is emitted and in-window) and at a concrete
out-of-window poll (offset 7 ≥ end 5 only marks partition 0 done). -/
theorem C7_window_bound_witness :
    GoodUi engPending.endOffsets
        { id := "0-0", partition := 0, key := "", offset := 0, message := ""
          timestamp := "10", decodingError := none }
      ∧ bufferPolled cEnv [(0, 5)] { done := [], buffers := [] } rPast
          = { done := [0], buffers := [] } :=
  ⟨C7_window_bound.1 (some [0]) (fun _ => (0, 5)) cEnv engPending 10
      [.msg { partition := 0, offset := 0, key := none, payload := none
              timestamp := .createTime 10 }]
      [{ id := "0-0", partition := 0, key := "", offset := 0, message := ""
         timestamp := "10", decodingError := none }]
      rfl bufGood_nil rfl
      { id := "0-0", partition := 0, key := "", offset := 0, message := ""
        timestamp := "10", decodingError := none } (by simp),
   C7_window_bound.2.2.1 cEnv [(0, 5)] { done := [], buffers := [] } rPast (by decide)⟩

/-! ## C4 — per-partition offset order -/

/-- Offsets of partition `p`'s messages in a result batch, in batch order. -/
def uiOffs (p : Int) (msgs : List UiMessage) : List Int :=
  (msgs.filter fun m => m.partition = p).map fun m => m.offset

/-- Offsets of partition `p`'s entries in a `(ts_ms, UiMessage)` list. -/
def outOffs (p : Int) (l : List BufEntry) : List Int :=
  (l.filter fun x => x.2.partition = p).map fun x => x.2.offset

/-- Timestamp keys of partition `p`'s entries in a `(ts_ms, UiMessage)` list. -/
def outTs (p : Int) (l : List BufEntry) : List Int :=
  (l.filter fun x => x.2.partition = p).map fun x => x.1

/-- Offsets currently buffered for partition `p`, front first. -/
def bufOffs (p : Int) (bufs : Buffers) : List Int :=
  ((bufs.lookup p).getD []).map fun x => x.2.offset

/-- The `ts_ms` sort key of a record timestamp: the first component of
`tsRender`, which does not depend on the rendering function. -/
def tsKey : KTimestamp → Int
  | .notAvailable => i64Max
  | .createTime ms => ms
  | .logAppendTime ms => ms

theorem tsRender_fst (f : Int → String) (t : KTimestamp) :
    (tsRender f t).1 = tsKey t := by
  cases t <;> rfl

/-- Offsets of partition `p`'s records in a poll trace, in delivery order. -/
def traceOffs (p : Int) : List PollItem → List Int
  | [] => []
  | .msg r :: rest =>
    if r.partition = p then r.offset :: traceOffs p rest else traceOffs p rest
  | .idle :: rest => traceOffs p rest
  | .errItem :: rest => traceOffs p rest

/-- Timestamp keys of partition `p`'s records in a poll trace. -/
def traceTs (p : Int) : List PollItem → List Int
  | [] => []
  | .msg r :: rest =>
    if r.partition = p then tsKey r.timestamp :: traceTs p rest else traceTs p rest
  | .idle :: rest => traceTs p rest
  | .errItem :: rest => traceTs p rest

/-- Buffer coherence: every buffered message records the partition of the
queue holding it. -/
def Coh (bufs : Buffers) : Prop :=
  ∀ e ∈ bufs, ∀ x ∈ e.2, (x : BufEntry).2.partition = e.1

theorem coh_lookup {bufs : Buffers} {p : Int} {q : List BufEntry}
    (hc : Coh bufs) (hl : bufs.lookup p = some q) :
    ∀ x ∈ q, x.2.partition = p := by
  rw [List.lookup_eq_some_iff] at hl
  obtain ⟨l1, l2, heq, -⟩ := hl
  exact hc (p, q) (by rw [heq]; simp)

/-- `List.lookup` through the update-in-place map used by the buffer
operations. -/
theorem lookup_mapIf (p q : Int) (f : List BufEntry → List BufEntry) :
    ∀ bufs : Buffers,
      (bufs.map fun e => if e.1 = p then (e.1, f e.2) else e).lookup q
        = if q = p then (bufs.lookup q).map f else bufs.lookup q
  | [] => by cases h : decide (q = p) <;> simp_all
  | ⟨k, w⟩ :: rest => by
    simp only [List.map_cons]
    by_cases hkp : k = p
    · rw [if_pos hkp]
      subst hkp
      by_cases hq : q = k
      · subst hq
        simp [List.lookup, beq_iff_eq]
      · have hbeq : (q == k) = false := beq_false_of_ne hq
        simp [List.lookup, hbeq, lookup_mapIf k q f rest]
    · rw [if_neg hkp]
      by_cases hq : q = k
      · subst hq
        simp [List.lookup, beq_iff_eq, hkp]
      · have hbeq : (q == k) = false := beq_false_of_ne hq
        simp [List.lookup, hbeq, lookup_mapIf p q f rest]

theorem lookup_append_single (p q : Int) (v : List BufEntry) :
    ∀ bufs : Buffers,
      (bufs ++ [(p, v)]).lookup q
        = match bufs.lookup q with
          | some w => some w
          | none => if q = p then some v else none
  | [] => by
    by_cases hq : q = p
    · subst hq
      simp [List.lookup]
    · have hbeq : (q == p) = false := beq_false_of_ne hq
      simp [List.lookup, hbeq, hq]
  | ⟨k, w⟩ :: rest => by
    by_cases hq : q = k
    · subst hq
      simp [List.lookup, beq_iff_eq]
    · have hbeq : (q == k) = false := beq_false_of_ne hq
      simp [List.lookup, hbeq, lookup_append_single p q v rest]

theorem bufOffs_bufPush_self (bufs : Buffers) (p : Int) (it : BufEntry) :
    bufOffs p (bufPush bufs p it) = bufOffs p bufs ++ [it.2.offset] := by
  unfold bufOffs bufPush
  rcases hl : bufs.lookup p with _ | q
  · rw [lookup_append_single]
    rw [hl]
    simp
  · dsimp only
    rw [lookup_mapIf p p (fun l => l ++ [it]) bufs]
    rw [if_pos rfl, hl]
    simp

theorem bufOffs_bufPush_ne (bufs : Buffers) (p k : Int) (it : BufEntry) (h : p ≠ k) :
    bufOffs p (bufPush bufs k it) = bufOffs p bufs := by
  unfold bufOffs bufPush
  rcases hl : bufs.lookup k with _ | q
  · rw [lookup_append_single]
    rcases hp : bufs.lookup p with _ | w
    · simp [h]
    · simp
  · dsimp only
    rw [lookup_mapIf k p (fun l => l ++ [it]) bufs]
    rw [if_neg h]

theorem bufOffs_ensureEntry (bufs : Buffers) (p k : Int) :
    bufOffs p (ensureEntry bufs k) = bufOffs p bufs := by
  unfold ensureEntry bufOffs
  rcases hl : bufs.lookup k with _ | q
  · rw [lookup_append_single]
    rcases hp : bufs.lookup p with _ | w
    · by_cases hpk : p = k <;> simp [hpk]
    · simp
  · rfl

theorem bufOffs_foldl_ensureEntry (l : List Int) (bufs : Buffers) (p : Int) :
    bufOffs p (l.foldl ensureEntry bufs) = bufOffs p bufs := by
  induction l generalizing bufs with
  | nil => rfl
  | cons a l ih => rw [List.foldl_cons, ih, bufOffs_ensureEntry]

theorem bufPopFront_self {bufs : Buffers} {p : Int} {x : BufEntry} {xs : List BufEntry}
    (hl : bufs.lookup p = some (x :: xs)) :
    (bufPopFront bufs p).1 = some x ∧
      bufOffs p (bufPopFront bufs p).2 = xs.map fun y => y.2.offset := by
  unfold bufPopFront bufOffs
  rw [hl]
  refine ⟨rfl, ?_⟩
  rw [lookup_mapIf p p (fun _ => xs) bufs]
  rw [if_pos rfl, hl]
  simp

theorem bufOffs_bufPopFront_ne (bufs : Buffers) (p k : Int) (h : p ≠ k) :
    bufOffs p (bufPopFront bufs k).2 = bufOffs p bufs := by
  unfold bufPopFront bufOffs
  rcases hl : bufs.lookup k with _ | (_ | ⟨x, xs⟩)
  · rfl
  · rfl
  · rw [lookup_mapIf k p (fun _ => xs) bufs]
    rw [if_neg h]

theorem coh_bufPush {bufs : Buffers} {k : Int} {it : BufEntry}
    (hc : Coh bufs) (hit : it.2.partition = k) : Coh (bufPush bufs k it) := by
  unfold bufPush
  rcases hl : bufs.lookup k with _ | q
  · intro e he x hx
    rcases List.mem_append.mp he with h1 | h1
    · exact hc e h1 x hx
    · rw [List.mem_singleton] at h1
      subst h1
      rw [List.mem_singleton] at hx
      subst hx
      exact hit
  · intro e he x hx
    rw [List.mem_map] at he
    obtain ⟨e0, he0, heq⟩ := he
    by_cases hek : e0.1 = k
    · rw [if_pos hek] at heq
      subst heq
      rcases List.mem_append.mp hx with h1 | h1
      · exact hc e0 he0 x h1
      · rw [List.mem_singleton] at h1
        subst h1
        rw [hit, hek]
    · rw [if_neg hek] at heq
      subst heq
      exact hc e0 he0 x hx

theorem coh_ensureEntry {bufs : Buffers} {k : Int} (hc : Coh bufs) :
    Coh (ensureEntry bufs k) := by
  unfold ensureEntry
  rcases bufs.lookup k with _ | q
  · intro e he x hx
    rcases List.mem_append.mp he with h1 | h1
    · exact hc e h1 x hx
    · rw [List.mem_singleton] at h1
      subst h1
      simp at hx
  · exact hc

theorem coh_foldl_ensureEntry {bufs : Buffers} (l : List Int) (hc : Coh bufs) :
    Coh (l.foldl ensureEntry bufs) := by
  induction l generalizing bufs with
  | nil => exact hc
  | cons a l ih => exact ih (coh_ensureEntry hc)

theorem coh_bufPopFront {bufs : Buffers} (k : Int) (hc : Coh bufs) :
    Coh (bufPopFront bufs k).2 := by
  unfold bufPopFront
  rcases hl : bufs.lookup k with _ | (_ | ⟨x, xs⟩)
  · exact hc
  · exact hc
  · intro e he y hy
    rw [List.mem_map] at he
    obtain ⟨e0, he0, heq⟩ := he
    by_cases hek : e0.1 = k
    · rw [if_pos hek] at heq
      subst heq
      have hk := coh_lookup hc hl y (List.mem_cons_of_mem x hy)
      rw [hk, hek]
    · rw [if_neg hek] at heq
      subst heq
      exact hc e0 he0 y hy

theorem outOffs_append_self (p : Int) (l : List BufEntry) (x : BufEntry)
    (h : x.2.partition = p) : outOffs p (l ++ [x]) = outOffs p l ++ [x.2.offset] := by
  unfold outOffs
  rw [List.filter_append]
  simp [h]

theorem outOffs_append_ne (p : Int) (l : List BufEntry) (x : BufEntry)
    (h : ¬ x.2.partition = p) : outOffs p (l ++ [x]) = outOffs p l := by
  unfold outOffs
  rw [List.filter_append]
  simp [h]

theorem outTs_append_self (p : Int) (l : List BufEntry) (x : BufEntry)
    (h : x.2.partition = p) : outTs p (l ++ [x]) = outTs p l ++ [x.1] := by
  unfold outTs
  rw [List.filter_append]
  simp [h]

theorem outTs_append_ne (p : Int) (l : List BufEntry) (x : BufEntry)
    (h : ¬ x.2.partition = p) : outTs p (l ++ [x]) = outTs p l := by
  unfold outTs
  rw [List.filter_append]
  simp [h]

theorem pairwise_drop_mid {R : Int → Int → Prop} {L M N : List Int} {a : Int}
    (h : List.Pairwise R (L ++ M ++ (a :: N))) :
    List.Pairwise R (L ++ M ++ N) := by
  refine h.sublist ?_
  exact List.Sublist.append (List.Sublist.refl _) (List.sublist_cons_self a N)

theorem append_mid_singleton (L M N : List Int) (a : Int) :
    L ++ (M ++ [a]) ++ N = L ++ M ++ (a :: N) := by
  simp [List.append_assoc]

theorem step_bufferPolled (env : ReadEnv) (ends : List (Int × Int)) (st : RState)
    (r : RawRecord) (p : Int) (L : List Int) (rest : List PollItem)
    (hc : Coh st.buffers)
    (hp : List.Pairwise (· < ·) (L ++ bufOffs p st.buffers ++ traceOffs p (.msg r :: rest))) :
    Coh (bufferPolled env ends st r).buffers ∧
      List.Pairwise (· < ·)
        (L ++ bufOffs p (bufferPolled env ends st r).buffers ++ traceOffs p rest) := by
  unfold bufferPolled
  by_cases hskip : r.offset ≥ endOf ends r.partition
  · rw [if_pos hskip]
    refine ⟨hc, ?_⟩
    by_cases hpp : r.partition = p
    · rw [show traceOffs p (.msg r :: rest) = r.offset :: traceOffs p rest from by
        simp [traceOffs, hpp]] at hp
      exact pairwise_drop_mid hp
    · rw [show traceOffs p (.msg r :: rest) = traceOffs p rest from by
        simp [traceOffs, hpp]] at hp
      exact hp
  · rw [if_neg hskip]
    dsimp only
    have hcoh2 : Coh (bufPush st.buffers r.partition (mkUi env r)) :=
      coh_bufPush hc rfl
    have hpw : List.Pairwise (· < ·)
        (L ++ bufOffs p (bufPush st.buffers r.partition (mkUi env r)) ++ traceOffs p rest) := by
      by_cases hpp : r.partition = p
      · subst hpp
        rw [bufOffs_bufPush_self]
        rw [show (mkUi env r).2.offset = r.offset from rfl]
        rw [append_mid_singleton]
        rw [show traceOffs r.partition (.msg r :: rest)
            = r.offset :: traceOffs r.partition rest from by simp [traceOffs]] at hp
        exact hp
      · rw [bufOffs_bufPush_ne _ _ _ _ (fun h => hpp h.symm)]
        rw [show traceOffs p (.msg r :: rest) = traceOffs p rest from by
          simp [traceOffs, hpp]] at hp
        exact hp
    split
    · exact ⟨hcoh2, hpw⟩
    · exact ⟨hcoh2, hpw⟩

theorem step_bufferPolledHeap (env : ReadEnv) (ends : List (Int × Int)) (st : RState)
    (heap : List HEntry) (r : RawRecord) (p : Int) (L : List Int) (rest : List PollItem)
    (hc : Coh st.buffers)
    (hp : List.Pairwise (· < ·) (L ++ bufOffs p st.buffers ++ traceOffs p (.msg r :: rest))) :
    Coh (bufferPolledHeap env ends st heap r).1.buffers ∧
      List.Pairwise (· < ·)
        (L ++ bufOffs p (bufferPolledHeap env ends st heap r).1.buffers ++ traceOffs p rest) := by
  unfold bufferPolledHeap
  by_cases hskip : r.offset ≥ endOf ends r.partition
  · rw [if_pos hskip]
    refine ⟨hc, ?_⟩
    by_cases hpp : r.partition = p
    · rw [show traceOffs p (.msg r :: rest) = r.offset :: traceOffs p rest from by
        simp [traceOffs, hpp]] at hp
      exact pairwise_drop_mid hp
    · rw [show traceOffs p (.msg r :: rest) = traceOffs p rest from by
        simp [traceOffs, hpp]] at hp
      exact hp
  · rw [if_neg hskip]
    dsimp only
    refine ⟨coh_bufPush hc rfl, ?_⟩
    by_cases hpp : r.partition = p
    · subst hpp
      rw [bufOffs_bufPush_self]
      rw [show (mkUi env r).2.offset = r.offset from rfl]
      rw [append_mid_singleton]
      rw [show traceOffs r.partition (.msg r :: rest)
          = r.offset :: traceOffs r.partition rest from by simp [traceOffs]] at hp
      exact hp
    · rw [bufOffs_bufPush_ne _ _ _ _ (fun h => hpp h.symm)]
      rw [show traceOffs p (.msg r :: rest) = traceOffs p rest from by
        simp [traceOffs, hpp]] at hp
      exact hp

theorem append_singleton_cons {α : Type} (A T : List α) (a : α) :
    (A ++ [a]) ++ T = A ++ a :: T := by
  simp

theorem pairwise_drop_mid2 {R : Int → Int → Prop} {L N : List Int} {a : Int}
    (h : List.Pairwise R (L ++ (a :: N))) : List.Pairwise R (L ++ N) :=
  h.sublist (List.Sublist.append (List.Sublist.refl L) (List.sublist_cons_self a N))

theorem append_singleton_mid2 (A B T : List Int) (a : Int) :
    (A ++ [a]) ++ B ++ T = A ++ (a :: B) ++ T := by
  simp

theorem fillHeadsLoop_inv {env : ReadEnv} {ends : List (Int × Int)} {parts : List Int}
    (p : Int) :
    ∀ (trace : List PollItem) (st : RState) (idle : Nat),
    Coh st.buffers →
    List.Pairwise (· < ·) (bufOffs p st.buffers ++ traceOffs p trace) →
    Coh (fillHeadsLoop env ends parts trace st idle).1.buffers ∧
      List.Pairwise (· < ·)
        (bufOffs p (fillHeadsLoop env ends parts trace st idle).1.buffers
          ++ traceOffs p (fillHeadsLoop env ends parts trace st idle).2.2) := by
  intro trace
  induction trace with
  | nil =>
    intro st idle hc hp
    unfold fillHeadsLoop
    dsimp only
    have hc1 : Coh (List.foldl ensureEntry st.buffers
        (parts.filter fun q => decide (q ∉ st.done))) :=
      coh_foldl_ensureEntry _ hc
    have hp1 : bufOffs p (List.foldl ensureEntry st.buffers
        (parts.filter fun q => decide (q ∉ st.done))) = bufOffs p st.buffers :=
      bufOffs_foldl_ensureEntry _ _ _
    split
    · exact ⟨hc1, by rw [hp1]; exact hp⟩
    · split
      · exact ⟨hc1, by rw [hp1]; exact hp⟩
      · exact ⟨hc1, by rw [hp1]; exact hp⟩
  | cons it rest ih =>
    intro st idle hc hp
    unfold fillHeadsLoop
    dsimp only
    have hc1 : Coh (List.foldl ensureEntry st.buffers
        (parts.filter fun q => decide (q ∉ st.done))) :=
      coh_foldl_ensureEntry _ hc
    have hp1 : bufOffs p (List.foldl ensureEntry st.buffers
        (parts.filter fun q => decide (q ∉ st.done))) = bufOffs p st.buffers :=
      bufOffs_foldl_ensureEntry _ _ _
    split
    · exact ⟨hc1, by rw [hp1]; exact hp⟩
    · split
      · exact ⟨hc1, by rw [hp1]; exact hp⟩
      · cases it with
        | idle => exact ih _ _ hc1 (by rw [hp1]; simpa [traceOffs] using hp)
        | errItem => exact ih _ _ hc1 (by rw [hp1]; simpa [traceOffs] using hp)
        | msg r =>
          have hstep := step_bufferPolled env ends
            (RState.mk st.done (List.foldl ensureEntry st.buffers
              (parts.filter fun q => decide (q ∉ st.done))))
            r p [] rest hc1 (by rw [hp1]; exact hp)
          exact ih _ _ hstep.1 hstep.2

theorem refillLoop_inv {env : ReadEnv} {ends : List (Int × Int)} (pickP p : Int)
    (L : List Int) :
    ∀ (trace : List PollItem) (localIdle : Nat) (st : RState) (heap : List HEntry),
    Coh st.buffers →
    List.Pairwise (· < ·) (L ++ bufOffs p st.buffers ++ traceOffs p trace) →
    Coh (refillLoop env ends pickP trace localIdle st heap).1.buffers ∧
      List.Pairwise (· < ·)
        (L ++ bufOffs p (refillLoop env ends pickP trace localIdle st heap).1.buffers
          ++ traceOffs p (refillLoop env ends pickP trace localIdle st heap).2.2) := by
  intro trace
  induction trace with
  | nil =>
    intro localIdle st heap hc hp
    unfold refillLoop
    dsimp only
    split
    · exact ⟨hc, hp⟩
    · split
      · exact ⟨hc, hp⟩
      · split
        · exact ⟨hc, hp⟩
        · exact ⟨hc, hp⟩
  | cons it rest ih =>
    intro localIdle st heap hc hp
    unfold refillLoop
    dsimp only
    split
    · exact ⟨hc, hp⟩
    · split
      · exact ⟨hc, hp⟩
      · split
        · exact ⟨hc, hp⟩
        · cases it with
          | idle => exact ih _ _ _ hc (by simpa [traceOffs] using hp)
          | errItem => exact ih _ _ _ hc (by simpa [traceOffs] using hp)
          | msg r =>
            dsimp only
            have hstep := step_bufferPolledHeap env ends st heap r p L rest hc hp
            split
            · exact ih _ _ _ hstep.1 hstep.2
            · split
              · exact hstep
              · exact ih _ _ _ hstep.1 hstep.2

theorem mergeOldestLoop_inv {env : ReadEnv} {ends : List (Int × Int)} {limit : Nat}
    (p : Int) :
    ∀ (fuel : Nat) (trace : List PollItem) (st : RState) (heap : List HEntry)
      (idle : Nat) (out : List BufEntry),
    Coh st.buffers →
    List.Pairwise (· < ·)
      (outOffs p out ++ bufOffs p st.buffers ++ traceOffs p trace) →
    Coh (mergeOldestLoop env ends limit fuel trace st heap idle out).2.1.buffers ∧
      List.Pairwise (· < ·)
        (outOffs p (mergeOldestLoop env ends limit fuel trace st heap idle out).1
          ++ bufOffs p (mergeOldestLoop env ends limit fuel trace st heap idle out).2.1.buffers
          ++ traceOffs p (mergeOldestLoop env ends limit fuel trace st heap idle out).2.2) := by
  intro fuel
  induction fuel with
  | zero => intro trace st heap idle out hc hp; exact ⟨hc, hp⟩
  | succ fuel ih =>
    intro trace st heap idle out hc hp
    unfold mergeOldestLoop
    split
    case isFalse => exact ⟨hc, hp⟩
    case isTrue =>
      rcases hmin : heapMin heap with _ | entry
      · dsimp only
        split
        · exact ⟨hc, hp⟩
        · cases trace with
          | nil => exact ⟨hc, hp⟩
          | cons it rest =>
            cases it with
            | idle => exact ih _ _ _ _ _ hc (by simpa [traceOffs] using hp)
            | errItem => exact ih _ _ _ _ _ hc (by simpa [traceOffs] using hp)
            | msg r =>
              dsimp only
              have hstep := step_bufferPolledHeap env ends st heap r p
                (outOffs p out) rest hc hp
              exact ih _ _ _ _ _ hstep.1 hstep.2
      · dsimp only
        rcases hlk : st.buffers.lookup entry.2 with _ | q
        · have hpop : bufPopFront st.buffers entry.2 = (none, st.buffers) := by
            unfold bufPopFront
            rw [hlk]
          rw [hpop]
          dsimp only
          exact ih _ _ _ _ _ hc hp
        · cases q with
          | nil =>
            have hpop : bufPopFront st.buffers entry.2 = (none, st.buffers) := by
              unfold bufPopFront
              rw [hlk]
            rw [hpop]
            dsimp only
            exact ih _ _ _ _ _ hc hp
          | cons x xs =>
            have hpop1 : (bufPopFront st.buffers entry.2).1 = some x :=
              (bufPopFront_self hlk).1
            rw [hpop1]
            dsimp only
            have hxp : x.2.partition = entry.2 :=
              coh_lookup hc hlk x (List.mem_cons_self x xs)
            have hc2 : Coh (bufPopFront st.buffers entry.2).2 :=
              coh_bufPopFront _ hc
            have hnew : List.Pairwise (· < ·)
                (outOffs p (out ++ [x])
                  ++ bufOffs p (bufPopFront st.buffers entry.2).2
                  ++ traceOffs p trace) := by
              by_cases hpp : entry.2 = p
              · subst hpp
                rw [outOffs_append_self _ out x hxp]
                rw [(bufPopFront_self hlk).2]
                rw [append_singleton_mid2]
                have hbo : bufOffs entry.2 st.buffers
                    = x.2.offset :: List.map (fun y => y.2.offset) xs := by
                  unfold bufOffs
                  rw [hlk]
                  simp
                rw [hbo] at hp
                exact hp
              · rw [outOffs_append_ne p out x (fun h => hpp (hxp.symm.trans h))]
                rw [bufOffs_bufPopFront_ne _ _ _ (fun h => hpp h.symm)]
                exact hp
            by_cases hmark : x.2.offset ≥ endOf ends entry.2 - 1
            · rw [if_pos hmark]
              split
              · exact ih _ _ _ _ _ hc2 hnew
              · have hr := @refillLoop_inv env ends entry.2 p (outOffs p (out ++ [x]))
                  trace 0 (RState.mk (doneInsert st.done entry.2)
                    (bufPopFront st.buffers entry.2).2) (heap.erase entry) hc2 hnew
                exact ih _ _ _ _ _ hr.1 hr.2
            · rw [if_neg hmark]
              split
              · exact ih _ _ _ _ _ hc2 hnew
              · have hr := @refillLoop_inv env ends entry.2 p (outOffs p (out ++ [x]))
                  trace 0 (RState.mk st.done (bufPopFront st.buffers entry.2).2)
                  (heap.erase entry) hc2 hnew
                exact ih _ _ _ _ _ hr.1 hr.2

theorem consumeMergeOldest_offsets (env : ReadEnv) (ends : List (Int × Int))
    (parts : List Int) (limit : Nat) (trace : List PollItem) (st : RState) (p : Int)
    (hc : Coh st.buffers)
    (hp : List.Pairwise (· < ·) (bufOffs p st.buffers ++ traceOffs p trace)) :
    List.Pairwise (· < ·)
      (outOffs p (consumeMergeOldest env ends parts limit trace st).1) := by
  unfold consumeMergeOldest
  dsimp only
  have hf := @fillHeadsLoop_inv env ends parts p trace st 0 hc hp
  have hm := @mergeOldestLoop_inv env ends limit p
    ((seedHeads (fillHeadsLoop env ends parts trace st 0).1.buffers).length
      + totalBuf (fillHeadsLoop env ends parts trace st 0).1.buffers
      + 3 * (fillHeadsLoop env ends parts trace st 0).2.2.length + 1)
    (fillHeadsLoop env ends parts trace st 0).2.2
    (fillHeadsLoop env ends parts trace st 0).1
    (seedHeads (fillHeadsLoop env ends parts trace st 0).1.buffers)
    (fillHeadsLoop env ends parts trace st 0).2.1
    [] hf.1 hf.2
  exact hm.2.sublist ((List.sublist_append_left _ _).trans (List.sublist_append_left _ _))

theorem seqOldestLoop_inv {env : ReadEnv} {ends : List (Int × Int)} {parts : List Int}
    {limit : Nat} (p : Int) :
    ∀ (trace : List PollItem) (st : RState) (idle : Nat) (collected : List BufEntry),
    List.Pairwise (· < ·) (outOffs p collected ++ traceOffs p trace) →
    List.Pairwise (· ≤ ·) (outTs p collected ++ traceTs p trace) →
    List.Pairwise (· < ·)
      (outOffs p (seqOldestLoop env ends parts limit trace st idle collected).1
        ++ traceOffs p (seqOldestLoop env ends parts limit trace st idle collected).2.2) ∧
      List.Pairwise (· ≤ ·)
        (outTs p (seqOldestLoop env ends parts limit trace st idle collected).1
          ++ traceTs p (seqOldestLoop env ends parts limit trace st idle collected).2.2) := by
  intro trace
  induction trace with
  | nil =>
    intro st idle collected hoff hts
    unfold seqOldestLoop
    split
    · exact ⟨hoff, hts⟩
    · exact ⟨hoff, hts⟩
  | cons it rest ih =>
    intro st idle collected hoff hts
    unfold seqOldestLoop
    split
    case isFalse => exact ⟨hoff, hts⟩
    case isTrue =>
      cases it with
      | idle =>
        exact ih _ _ _ (by simpa [traceOffs] using hoff) (by simpa [traceTs] using hts)
      | errItem =>
        exact ih _ _ _ (by simpa [traceOffs] using hoff) (by simpa [traceTs] using hts)
      | msg r =>
        dsimp only
        by_cases hskip : r.offset ≥ endOf ends r.partition
        · rw [if_pos hskip]
          have hoff2 : List.Pairwise (· < ·) (outOffs p collected ++ traceOffs p rest) := by
            by_cases hpp : r.partition = p
            · rw [show traceOffs p (.msg r :: rest) = r.offset :: traceOffs p rest from by
                simp [traceOffs, hpp]] at hoff
              exact pairwise_drop_mid2 hoff
            · rw [show traceOffs p (.msg r :: rest) = traceOffs p rest from by
                simp [traceOffs, hpp]] at hoff
              exact hoff
          have hts2 : List.Pairwise (· ≤ ·) (outTs p collected ++ traceTs p rest) := by
            by_cases hpp : r.partition = p
            · rw [show traceTs p (.msg r :: rest)
                  = tsKey r.timestamp :: traceTs p rest from by simp [traceTs, hpp]] at hts
              exact pairwise_drop_mid2 hts
            · rw [show traceTs p (.msg r :: rest) = traceTs p rest from by
                simp [traceTs, hpp]] at hts
              exact hts
          split
          · exact ⟨hoff2, hts2⟩
          · exact ih _ _ _ hoff2 hts2
        · rw [if_neg hskip]
          have hoff2 : List.Pairwise (· < ·)
              (outOffs p (collected ++ [mkUi env r]) ++ traceOffs p rest) := by
            by_cases hpp : r.partition = p
            · rw [outOffs_append_self p collected (mkUi env r) hpp]
              rw [append_singleton_cons]
              rw [show traceOffs p (.msg r :: rest) = r.offset :: traceOffs p rest from by
                simp [traceOffs, hpp]] at hoff
              exact hoff
            · rw [outOffs_append_ne p collected (mkUi env r) hpp]
              rw [show traceOffs p (.msg r :: rest) = traceOffs p rest from by
                simp [traceOffs, hpp]] at hoff
              exact hoff
          have hts2 : List.Pairwise (· ≤ ·)
              (outTs p (collected ++ [mkUi env r]) ++ traceTs p rest) := by
            by_cases hpp : r.partition = p
            · rw [outTs_append_self p collected (mkUi env r) hpp]
              rw [show (mkUi env r).1 = tsKey r.timestamp from
                tsRender_fst env.fmtMs r.timestamp]
              rw [append_singleton_cons]
              rw [show traceTs p (.msg r :: rest)
                  = tsKey r.timestamp :: traceTs p rest from by simp [traceTs, hpp]] at hts
              exact hts
            · rw [outTs_append_ne p collected (mkUi env r) hpp]
              rw [show traceTs p (.msg r :: rest) = traceTs p rest from by
                simp [traceTs, hpp]] at hts
              exact hts
          by_cases hmark : r.offset ≥ endOf ends r.partition - 1
          · rw [if_pos hmark]
            split
            · exact ⟨hoff2, hts2⟩
            · exact ih _ _ _ hoff2 hts2
          · rw [if_neg hmark]
            exact ih _ _ _ hoff2 hts2

theorem consumeSeqOldest_offsets (env : ReadEnv) (ends : List (Int × Int))
    (parts : List Int) (limit : Nat) (trace : List PollItem) (st : RState) (p : Int)
    (hoff : List.Pairwise (· < ·) (traceOffs p trace))
    (hts : List.Pairwise (· ≤ ·) (traceTs p trace)) :
    List.Pairwise (· < ·)
      (outOffs p (consumeSeqOldest env ends parts limit trace st).1) := by
  unfold consumeSeqOldest
  dsimp only
  have hinv := @seqOldestLoop_inv env ends parts limit p trace st 0 [] hoff hts
  have hoffc : List.Pairwise (· < ·)
      (outOffs p (seqOldestLoop env ends parts limit trace st 0 []).1) :=
    hinv.1.sublist (List.sublist_append_left _ _)
  have htsc : List.Pairwise (· ≤ ·)
      (outTs p (seqOldestLoop env ends parts limit trace st 0 []).1) :=
    hinv.2.sublist (List.sublist_append_left _ _)
  unfold outTs at htsc
  have hsubpw : ((seqOldestLoop env ends parts limit trace st 0 []).1.filter
      fun x => x.2.partition = p).Pairwise (fun a b : BufEntry => a.1 ≤ b.1) :=
    (List.pairwise_map).mp htsc
  have hsub : List.Sublist
      ((seqOldestLoop env ends parts limit trace st 0 []).1.filter
        fun x => x.2.partition = p)
      (sortByTs (seqOldestLoop env ends parts limit trace st 0 []).1) := by
    unfold sortByTs
    exact List.sublist_insertionSort hsubpw
      (List.filter_sublist (seqOldestLoop env ends parts limit trace st 0 []).1)
  have hperm : ((sortByTs (seqOldestLoop env ends parts limit trace st 0 []).1).filter
      fun x => x.2.partition = p).Perm
      ((seqOldestLoop env ends parts limit trace st 0 []).1.filter
        fun x => x.2.partition = p) := by
    unfold sortByTs
    exact (List.perm_insertionSort _ _).filter _
  have hself : (((seqOldestLoop env ends parts limit trace st 0 []).1.filter
      fun x => x.2.partition = p).filter fun x => x.2.partition = p)
      = ((seqOldestLoop env ends parts limit trace st 0 []).1.filter
        fun x => x.2.partition = p) := by
    rw [List.filter_eq_self]
    intro x hx
    exact (List.mem_filter.mp hx).2
  have hsub2 := hsub.filter (fun x => decide (x.2.partition = p))
  rw [hself] at hsub2
  have heq := hsub2.eq_of_length hperm.length_eq.symm
  unfold outOffs at hoffc ⊢
  rw [← heq]
  exact hoffc

theorem uiOffs_map_snd (p : Int) (l : List BufEntry) :
    uiOffs p (l.map Prod.snd) = outOffs p l := by
  unfold uiOffs outOffs
  induction l with
  | nil => rfl
  | cons x xs ih =>
    by_cases h : x.2.partition = p
    · simp only [List.map_cons, List.filter_cons]
      simp [h, ih]
    · simp only [List.map_cons, List.filter_cons]
      simp [h, ih]

/-- C4 (amended): per-partition strictly increasing offsets hold for the
ascending-emission strategies with a caveat on the sequential one.  (1) In
merge-oldest (the route taken with the "all" selector and more than one
plan partition), each partition's messages appear in every returned batch
in strictly increasing offset order for records delivered in per-partition
offset order, regardless of timestamps.  (2) In the sequential oldest-first
route the collected batch is re-sorted by `ts_ms` before being returned, so
the per-partition offset order is only guaranteed when each partition's
records also arrive with non-decreasing timestamps; with out-of-order
timestamps it fails (see the counterexample). -/
theorem C4_per_partition_offset_order :
    (∀ (meta : Option (List Int)) (wm : Int → Int × Int) (env : ReadEnv) (e : Engine)
       (limit : Nat) (trace : List PollItem) (p : Int) (msgs : List UiMessage),
       e.assigned = true → e.buffers = [] →
       isNewest e.config.startFrom = false →
       isAllSelector e.config.partition = true → 1 < e.partitions.length →
       List.Pairwise (· < ·) (traceOffs p trace) →
       (consumeNext meta wm env e limit trace).2 = .ok msgs →
       List.Pairwise (· < ·) (uiOffs p msgs))
    ∧ (∀ (meta : Option (List Int)) (wm : Int → Int × Int) (env : ReadEnv) (e : Engine)
       (limit : Nat) (trace : List PollItem) (p : Int) (msgs : List UiMessage),
       e.assigned = true →
       isNewest e.config.startFrom = false →
       (isAllSelector e.config.partition = false ∨ e.partitions.length ≤ 1) →
       List.Pairwise (· < ·) (traceOffs p trace) →
       List.Pairwise (· ≤ ·) (traceTs p trace) →
       (consumeNext meta wm env e limit trace).2 = .ok msgs →
       List.Pairwise (· < ·) (uiOffs p msgs)) := by
  constructor
  · intro meta wm env e limit trace p msgs ha hbuf hnn hall hlen htr hok
    have h1 : ensureAssigned meta wm e = (e, .ok ()) := by
      unfold ensureAssigned
      rw [ha]
      simp
    unfold consumeNext at hok
    rw [h1] at hok
    dsimp only at hok
    split at hok
    · cases hok
      simp [uiOffs]
    · split at hok <;> rename_i hsel
      · exact absurd hsel (by rw [hall]; simp; omega)
      · unfold consumeMerge at hok
        split at hok <;> rename_i hnew
        · rw [hnn] at hnew
          cases hnew
        · cases hok
          rw [uiOffs_map_snd]
          apply consumeMergeOldest_offsets
          · show Coh e.buffers
            rw [hbuf]
            intro x hx
            simp at hx
          · show List.Pairwise _ (bufOffs p e.buffers ++ traceOffs p trace)
            rw [hbuf]
            exact htr
  · intro meta wm env e limit trace p msgs ha hnn hseq htr hts hok
    have h1 : ensureAssigned meta wm e = (e, .ok ()) := by
      unfold ensureAssigned
      rw [ha]
      simp
    unfold consumeNext at hok
    rw [h1] at hok
    dsimp only at hok
    split at hok
    · cases hok
      simp [uiOffs]
    · split at hok <;> rename_i hsel
      · unfold consumeSequential at hok
        split at hok <;> rename_i hnew
        · rw [hnn] at hnew
          cases hnew
        · cases hok
          rw [uiOffs_map_snd]
          exact consumeSeqOldest_offsets _ _ _ _ _ _ _ htr hts
      · exact absurd hseq (by
          rcases not_or.mp hsel with ⟨h2, h3⟩
          simp at h2
          intro hc
          rcases hc with hc | hc
          · rw [h2] at hc
            cases hc
          · exact h3 hc)

/-- A partition-0 record at offset 0 with timestamp 10. -/
def rC4a : RawRecord :=
  { partition := 0, offset := 0, key := none, payload := none
    timestamp := .createTime 10 }

/-- A partition-0 record at offset 1 with the smaller timestamp 5. -/
def rC4b : RawRecord :=
  { partition := 0, offset := 1, key := none, payload := none
    timestamp := .createTime 5 }

/-- The batch the sequential-oldest run returns on `[rC4a, rC4b]`. -/
def c4CexBatch : List UiMessage :=
  [{ id := "0-1", partition := 0, key := "", offset := 1, message := ""
     timestamp := "5", decodingError := none },
   { id := "0-0", partition := 0, key := "", offset := 0, message := ""
     timestamp := "10", decodingError := none }]

/-- C4 counterexample: partition 0's records arrive in offset order 0, 1
but with timestamps 10, 5; the sequential oldest-first `consume_next`
re-sorts by timestamp and returns partition 0's messages at offsets 1, 0 —
not strictly increasing. -/
theorem C4_counterexample :
    (consumeNext (some [0]) (fun _ => (0, 5)) cEnv engPending 10
        [.msg rC4a, .msg rC4b]).2 = .ok c4CexBatch
      ∧ List.Pairwise (· < ·) (traceOffs 0 [.msg rC4a, .msg rC4b])
      ∧ ¬ List.Pairwise (· < ·) (uiOffs 0 c4CexBatch) := by
  refine ⟨rfl, by decide, by decide⟩

/-- An assigned engine over partitions 0 and 1 with the "all" selector,
reading oldest-first, window ends 5. -/
def engMergeC4 : Engine :=
  { config := { messageType := .json, partition := none, startOffset := none
                startFrom := none, protoSchemaPath := none, protoMessageFullName := none }
    protoDecoder := none, assigned := true, endOffsets := [(0, 5), (1, 5)]
    partitions := [0, 1], done := [], buffers := [], assignment := [] }

/-- Interleaved records of partitions 0 and 1 in per-partition offset
order. -/
def c4MergeTrace : List PollItem :=
  [.msg { partition := 0, offset := 0, key := none, payload := none
          timestamp := .createTime 10 },
   .msg { partition := 1, offset := 0, key := none, payload := none
          timestamp := .createTime 5 },
   .msg { partition := 0, offset := 1, key := none, payload := none
          timestamp := .createTime 20 },
   .msg { partition := 1, offset := 1, key := none, payload := none
          timestamp := .createTime 30 }]

/-- The batch merge-oldest returns on `c4MergeTrace`. -/
def c4MergeBatch : List UiMessage :=
  [{ id := "1-0", partition := 1, key := "", offset := 0, message := ""
     timestamp := "5", decodingError := none },
   { id := "0-0", partition := 0, key := "", offset := 0, message := ""
     timestamp := "10", decodingError := none },
   { id := "0-1", partition := 0, key := "", offset := 1, message := ""
     timestamp := "20", decodingError := none },
   { id := "1-1", partition := 1, key := "", offset := 1, message := ""
     timestamp := "30", decodingError := none }]

/-- The batch the sequential route returns on the ts-ordered trace. -/
def c4SeqBatch : List UiMessage :=
  [{ id := "0-0", partition := 0, key := "", offset := 0, message := ""
     timestamp := "5", decodingError := none },
   { id := "0-1", partition := 0, key := "", offset := 1, message := ""
     timestamp := "10", decodingError := none }]

/-- C4 witness: both parts of the amended theorem at concrete runs —
merge-oldest over two partitions and sequential oldest-first with
non-decreasing timestamps both emit partition 0's offsets in strictly
increasing order. -/
theorem C4_per_partition_offset_order_witness :
    List.Pairwise (· < ·) (uiOffs 0 c4MergeBatch)
      ∧ List.Pairwise (· < ·) (uiOffs 0 c4SeqBatch) :=
  ⟨C4_per_partition_offset_order.1 (some [0, 1]) (fun _ => (0, 5)) cEnv engMergeC4
      10 c4MergeTrace 0 c4MergeBatch rfl rfl rfl rfl (by decide) (by decide) rfl,
   C4_per_partition_offset_order.2 (some [0]) (fun _ => (0, 5)) cEnv engPending
      10 [.msg { partition := 0, offset := 0, key := none, payload := none
                 timestamp := .createTime 5 },
          .msg { partition := 0, offset := 1, key := none, payload := none
                 timestamp := .createTime 10 }] 0 c4SeqBatch
      rfl rfl (Or.inr (by decide)) (by decide) (by decide) rfl⟩

/-! ## C5 — merge-oldest batch ordering -/

/-- The heap key carried by a buffered `(ts_ms, UiMessage)` pair:
`(ts_ms, partition, offset)`. -/
def entryKey (x : BufEntry) : HKey := (x.1, x.2.partition, x.2.offset)

/-- The key sequence of an emitted batch. -/
def outKeys (l : List BufEntry) : List HKey := l.map entryKey

theorem keyLe_refl (a : HKey) : KeyLe a a := Or.inr rfl

theorem keyLe_of_not_lt {a b : HKey} (h : ¬ KeyLt a b) : KeyLe b a := by
  obtain ⟨a1, a2, a3⟩ := a
  obtain ⟨b1, b2, b3⟩ := b
  simp only [KeyLt, KeyLe, Prod.mk.injEq] at h ⊢
  omega

theorem keyLe_trans {a b c : HKey} (h1 : KeyLe a b) (h2 : KeyLe b c) : KeyLe a c := by
  obtain ⟨a1, a2, a3⟩ := a
  obtain ⟨b1, b2, b3⟩ := b
  obtain ⟨c1, c2, c3⟩ := c
  simp only [KeyLt, KeyLe, Prod.mk.injEq] at h1 h2 ⊢
  omega

theorem heapMin_cons_isSome (x : HEntry) (xs : List HEntry) :
    (heapMin (x :: xs)).isSome = true := by
  unfold heapMin
  rcases heapMin xs with _ | m
  · rfl
  · dsimp only
    split
    · rfl
    · rfl

theorem heapMin_mem : ∀ {l : List HEntry} {e : HEntry}, heapMin l = some e → e ∈ l
  | [], e => by intro h; cases h
  | x :: xs, e => by
    intro h
    unfold heapMin at h
    rcases hm : heapMin xs with _ | m
    · rw [hm] at h
      dsimp only at h
      cases h
      exact List.mem_cons_self x xs
    · rw [hm] at h
      dsimp only at h
      split at h
      · cases h
        exact List.mem_cons_of_mem x (heapMin_mem hm)
      · cases h
        exact List.mem_cons_self x xs

theorem heapMin_le : ∀ {l : List HEntry} {e : HEntry}, heapMin l = some e →
    ∀ y ∈ l, KeyLe e.1 y.1
  | [], e => by intro h; cases h
  | x :: xs, e => by
    intro h y hy
    unfold heapMin at h
    rcases hm : heapMin xs with _ | m
    · rw [hm] at h
      dsimp only at h
      cases h
      cases xs with
      | nil =>
        rw [List.mem_singleton] at hy
        subst hy
        exact keyLe_refl _
      | cons a as =>
        have := heapMin_cons_isSome a as
        rw [hm] at this
        cases this
    · rw [hm] at h
      dsimp only at h
      split at h <;> rename_i hlt
      · cases h
        rcases List.mem_cons.mp hy with rfl | hy2
        · exact Or.inl hlt
        · exact heapMin_le hm y hy2
      · cases h
        rcases List.mem_cons.mp hy with rfl | hy2
        · exact keyLe_refl _
        · exact keyLe_trans (keyLe_of_not_lt hlt) (heapMin_le hm y hy2)

theorem bufPopFront_lookup_self {bufs : Buffers} {p : Int} {x : BufEntry}
    {xs : List BufEntry} (hl : bufs.lookup p = some (x :: xs)) :
    (bufPopFront bufs p).2.lookup p = some xs := by
  unfold bufPopFront
  rw [hl]
  dsimp only
  rw [lookup_mapIf p p (fun _ => xs) bufs]
  rw [if_pos rfl, hl]
  rfl

theorem bufPopFront_lookup_ne (bufs : Buffers) (p k : Int) (h : k ≠ p) :
    (bufPopFront bufs p).2.lookup k = bufs.lookup k := by
  unfold bufPopFront
  rcases hl : bufs.lookup p with _ | (_ | ⟨x, xs⟩)
  · rfl
  · rfl
  · dsimp only
    rw [lookup_mapIf p k (fun _ => xs) bufs]
    rw [if_neg h]

theorem refillLoop_nil (env : ReadEnv) (ends : List (Int × Int)) (pickP : Int)
    (n : Nat) (st : RState) (heap : List HEntry) :
    refillLoop env ends pickP [] n st heap = (st, heap, []) := by
  unfold refillLoop
  split
  · rfl
  · split
    · rfl
    · split
      · rfl
      · rfl

theorem lookup_eq_of_mem_nodup {bufs : Buffers} (hnd : (bufs.map Prod.fst).Nodup)
    {k : Int} {v : List BufEntry} (h : (k, v) ∈ bufs) : bufs.lookup k = some v := by
  induction bufs with
  | nil => simp at h
  | cons e rest ih =>
    rcases List.mem_cons.mp h with he | h2
    · rw [← he]
      simp [List.lookup]
    · have hk : k ≠ e.1 := by
        intro hke
        have hmem : k ∈ rest.map Prod.fst := List.mem_map.mpr ⟨(k, v), h2, rfl⟩
        rw [List.map_cons] at hnd
        exact (List.nodup_cons.mp hnd).1 (hke ▸ hmem)
      have hbeq : (k == e.1) = false := beq_false_of_ne hk
      rw [List.map_cons] at hnd
      simp only [List.lookup, hbeq]
      exact ih (List.nodup_cons.mp hnd).2 h2

theorem seedHeads_mem {bufs : Buffers} {en : HEntry} (h : en ∈ seedHeads bufs) :
    ∃ e ∈ bufs, ∃ x xs, e.2 = x :: xs ∧ en = ((x.1, e.1, x.2.offset), e.1) := by
  unfold seedHeads at h
  rw [List.mem_filterMap] at h
  obtain ⟨e, he, hmap⟩ := h
  rcases hh : e.2 with _ | ⟨x, xs⟩
  · rw [hh] at hmap
    simp at hmap
  · rw [hh] at hmap
    simp at hmap
    exact ⟨e, he, x, xs, hh, hmap.symm⟩

theorem seedHeads_complete {bufs : Buffers} {e : Int × List BufEntry} (he : e ∈ bufs)
    {x : BufEntry} {xs : List BufEntry} (hx : e.2 = x :: xs) :
    ((x.1, e.1, x.2.offset), e.1) ∈ seedHeads bufs := by
  unfold seedHeads
  rw [List.mem_filterMap]
  refine ⟨e, he, ?_⟩
  rw [hx]
  rfl

theorem seedHeads_snd_sublist : ∀ bufs : Buffers,
    List.Sublist ((seedHeads bufs).map Prod.snd) (bufs.map Prod.fst)
  | [] => List.Sublist.refl _
  | e :: rest => by
    unfold seedHeads
    rcases hh : e.2 with _ | ⟨x, xs⟩
    · rw [List.filterMap_cons]
      simp only [hh, Option.map_none]
      exact List.Sublist.cons _ (seedHeads_snd_sublist rest)
    · rw [List.filterMap_cons]
      simp only [hh]
      exact List.Sublist.cons₂ _ (seedHeads_snd_sublist rest)

theorem bufPopFront_mem {bufs : Buffers} {p : Int} {x : BufEntry} {xs : List BufEntry}
    (hl : bufs.lookup p = some (x :: xs)) {e' : Int × List BufEntry}
    (h : e' ∈ (bufPopFront bufs p).2) : e' ∈ bufs ∨ e'.2 = xs := by
  unfold bufPopFront at h
  rw [hl] at h
  dsimp only at h
  rw [List.mem_map] at h
  obtain ⟨e0, he0, heq⟩ := h
  by_cases hek : e0.1 = p
  · rw [if_pos hek] at heq
    right
    rw [← heq]
  · rw [if_neg hek] at heq
    left
    rw [← heq]
    exact he0

theorem mergeOldestLoop_sorted {env : ReadEnv} {ends : List (Int × Int)} {limit : Nat} :
    ∀ (fuel : Nat) (st : RState) (heap : List HEntry) (idle : Nat) (out : List BufEntry),
    Coh st.buffers →
    (∀ en ∈ heap, ∃ x xs, st.buffers.lookup en.2 = some (x :: xs) ∧ en.1 = entryKey x) →
    (∀ (k : Int) (x : BufEntry) (xs : List BufEntry),
      st.buffers.lookup k = some (x :: xs) → ∃ en ∈ heap, en.2 = k) →
    (heap.map Prod.snd).Nodup →
    (∀ e ∈ st.buffers, List.Pairwise KeyLe (e.2.map entryKey)) →
    (∀ en ∈ heap, ∀ κ ∈ (outKeys out).getLast?, KeyLe κ en.1) →
    List.Chain' KeyLe (outKeys out) →
    List.Chain' KeyLe
      (outKeys (mergeOldestLoop env ends limit fuel [] st heap idle out).1) := by
  intro fuel
  induction fuel with
  | zero => intro st heap idle out hc hI1 hI2 hI3 hI4 hI5 hI6; exact hI6
  | succ fuel ih =>
    intro st heap idle out hc hI1 hI2 hI3 hI4 hI5 hI6
    unfold mergeOldestLoop
    split
    case isFalse => exact hI6
    case isTrue =>
      rcases hmin : heapMin heap with _ | entry
      · dsimp only
        split
        · exact hI6
        · exact hI6
      · have hentry := heapMin_mem hmin
        obtain ⟨x, xs, hlk, hkey⟩ := hI1 entry hentry
        have hpop1 : (bufPopFront st.buffers entry.2).1 = some x := (bufPopFront_self hlk).1
        dsimp only
        rw [hpop1]
        dsimp only
        have hxp : x.2.partition = entry.2 := coh_lookup hc hlk x (List.mem_cons_self x xs)
        have hc2 : Coh (bufPopFront st.buffers entry.2).2 := coh_bufPopFront _ hc
        have hlk2 : (bufPopFront st.buffers entry.2).2.lookup entry.2 = some xs :=
          bufPopFront_lookup_self hlk
        have hheapNd : heap.Nodup := List.Nodup.of_map _ hI3
        have hmemEq : (entry.2, x :: xs) ∈ st.buffers := by
          have hdec := List.lookup_eq_some_iff.mp hlk
          obtain ⟨l1, l2, heq, -⟩ := hdec
          rw [heq]
          simp
        have hqpw : List.Pairwise KeyLe ((x :: xs).map entryKey) := hI4 _ hmemEq
        have hErMem : ∀ en' ∈ heap.erase entry, en' ∈ heap ∧ en' ≠ entry ∧ en'.2 ≠ entry.2 := by
          intro en' hen'
          have h1 := (List.Nodup.mem_erase_iff hheapNd).mp hen'
          refine ⟨h1.2, h1.1, ?_⟩
          intro hsnd
          exact h1.1 (List.inj_on_of_nodup_map hI3 h1.2 hentry hsnd)
        have houtKeys : outKeys (out ++ [x]) = outKeys out ++ [entryKey x] := by
          unfold outKeys
          rw [List.map_append]
          rfl
        have hout6 : List.Chain' KeyLe (outKeys (out ++ [x])) := by
          rw [houtKeys]
          rw [List.chain'_append]
          refine ⟨hI6, List.chain'_singleton _, ?_⟩
          intro a ha b hb
          simp at hb
          subst hb
          have h2 := hI5 entry hentry a ha
          rw [hkey] at h2
          exact h2
        have hlast : (outKeys (out ++ [x])).getLast? = some (entryKey x) := by
          rw [houtKeys]
          exact List.getLast?_concat _
        have hA3 : ((heap.erase entry).map Prod.snd).Nodup :=
          hI3.sublist ((List.erase_sublist entry heap).map Prod.snd)
        have hA1 : ∀ en' ∈ heap.erase entry, ∃ y ys,
            (bufPopFront st.buffers entry.2).2.lookup en'.2 = some (y :: ys)
              ∧ en'.1 = entryKey y := by
          intro en' hen'
          obtain ⟨hmem, hne, hsnd⟩ := hErMem en' hen'
          obtain ⟨y, ys, hlky, hkeyy⟩ := hI1 en' hmem
          refine ⟨y, ys, ?_, hkeyy⟩
          rw [bufPopFront_lookup_ne st.buffers entry.2 en'.2 hsnd]
          exact hlky
        have hA5 : ∀ en' ∈ heap.erase entry, ∀ κ ∈ (outKeys (out ++ [x])).getLast?,
            KeyLe κ en'.1 := by
          intro en' hen' κ hκ
          rw [hlast] at hκ
          simp at hκ
          subst hκ
          obtain ⟨hmem, -, -⟩ := hErMem en' hen'
          have h2 := heapMin_le hmin en' hmem
          rw [hkey] at h2
          exact h2
        have hA4 : ∀ e' ∈ (bufPopFront st.buffers entry.2).2,
            List.Pairwise KeyLe (e'.2.map entryKey) := by
          intro e' he'
          rcases bufPopFront_mem hlk he' with h1 | h1
          · exact hI4 e' h1
          · rw [h1]
            rw [List.map_cons] at hqpw
            exact hqpw.of_cons
        cases xs with
        | nil =>
          have hA2 : ∀ (k : Int) (y : BufEntry) (ys : List BufEntry),
              (bufPopFront st.buffers entry.2).2.lookup k = some (y :: ys) →
              ∃ en ∈ heap.erase entry, en.2 = k := by
            intro k y ys hlky
            by_cases hke : k = entry.2
            · subst hke
              rw [hlk2] at hlky
              cases hlky
            · rw [bufPopFront_lookup_ne st.buffers entry.2 k hke] at hlky
              obtain ⟨en, henmem, hen2⟩ := hI2 k y ys hlky
              refine ⟨en, ?_, hen2⟩
              rw [List.Nodup.mem_erase_iff hheapNd]
              refine ⟨?_, henmem⟩
              intro heq
              rw [heq] at hen2
              exact hke hen2.symm
          by_cases hmark : x.2.offset ≥ endOf ends entry.2 - 1
          · rw [if_pos hmark]
            rw [hlk2]
            rw [refillLoop_nil]
            dsimp only
            exact ih _ _ _ _ hc2 hA1 hA2 hA3 hA4 hA5 hout6
          · rw [if_neg hmark]
            rw [hlk2]
            rw [refillLoop_nil]
            dsimp only
            exact ih _ _ _ _ hc2 hA1 hA2 hA3 hA4 hA5 hout6
        | cons next rest2 =>
          have hnp : next.2.partition = entry.2 :=
            coh_lookup hc hlk next (List.mem_cons_of_mem x (List.mem_cons_self next rest2))
          have hpushkey : ((next.1, entry.2, next.2.offset) : HKey) = entryKey next := by
            unfold entryKey
            rw [hnp]
          have hB1 : ∀ en' ∈ heap.erase entry ++ [((next.1, entry.2, next.2.offset), entry.2)],
              ∃ y ys, (bufPopFront st.buffers entry.2).2.lookup en'.2 = some (y :: ys)
                ∧ en'.1 = entryKey y := by
            intro en' hen'
            rcases List.mem_append.mp hen' with h1 | h1
            · exact hA1 en' h1
            · rw [List.mem_singleton] at h1
              subst h1
              exact ⟨next, rest2, hlk2, hpushkey⟩
          have hB2 : ∀ (k : Int) (y : BufEntry) (ys : List BufEntry),
              (bufPopFront st.buffers entry.2).2.lookup k = some (y :: ys) →
              ∃ en ∈ heap.erase entry ++ [((next.1, entry.2, next.2.offset), entry.2)],
                en.2 = k := by
            intro k y ys hlky
            by_cases hke : k = entry.2
            · subst hke
              refine ⟨((next.1, entry.2, next.2.offset), entry.2), ?_, rfl⟩
              exact List.mem_append.mpr (Or.inr (List.mem_singleton.mpr rfl))
            · rw [bufPopFront_lookup_ne st.buffers entry.2 k hke] at hlky
              obtain ⟨en, henmem, hen2⟩ := hI2 k y ys hlky
              have hne : en ≠ entry := by
                intro heq
                rw [heq] at hen2
                exact hke hen2.symm
              exact ⟨en, List.mem_append.mpr
                (Or.inl ((List.Nodup.mem_erase_iff hheapNd).mpr ⟨hne, henmem⟩)), hen2⟩
          have hB3 : ((heap.erase entry
              ++ [((next.1, entry.2, next.2.offset), entry.2)]).map Prod.snd).Nodup := by
            rw [List.map_append]
            have hnotin : entry.2 ∉ (heap.erase entry).map Prod.snd := by
              intro hmem
              rw [List.mem_map] at hmem
              obtain ⟨en', hen', hsnd⟩ := hmem
              exact (hErMem en' hen').2.2 hsnd
            simp [List.nodup_append, hA3, hnotin]
          have hB5 : ∀ en' ∈ heap.erase entry ++ [((next.1, entry.2, next.2.offset), entry.2)],
              ∀ κ ∈ (outKeys (out ++ [x])).getLast?, KeyLe κ en'.1 := by
            intro en' hen' κ hκ
            rcases List.mem_append.mp hen' with h1 | h1
            · exact hA5 en' h1 κ hκ
            · rw [List.mem_singleton] at h1
              subst h1
              rw [hlast] at hκ
              simp at hκ
              subst hκ
              show KeyLe (entryKey x) (next.1, entry.2, next.2.offset)
              rw [hpushkey]
              rw [List.map_cons, List.map_cons] at hqpw
              exact List.rel_of_pairwise_cons hqpw (List.mem_cons_self _ _)
          by_cases hmark : x.2.offset ≥ endOf ends entry.2 - 1
          · rw [if_pos hmark]
            rw [hlk2]
            exact ih _ _ _ _ hc2 hB1 hB2 hB3 hA4 hB5 hout6
          · rw [if_neg hmark]
            rw [hlk2]
            exact ih _ _ _ _ hc2 hB1 hB2 hB3 hA4 hB5 hout6

theorem fillHeadsLoop_nil_allDone (env : ReadEnv) (ends : List (Int × Int))
    (parts : List Int) (st : RState) (h : allDone parts st.done = true) :
    fillHeadsLoop env ends parts [] st 0 = (st, 0, []) := by
  have hact : parts.filter (fun q => decide (q ∉ st.done)) = [] := by
    rw [List.filter_eq_nil_iff]
    intro q hq
    unfold allDone at h
    rw [List.all_eq_true] at h
    have h2 := h q hq
    simp at h2 ⊢
    exact h2
  unfold fillHeadsLoop
  dsimp only
  rw [hact]
  simp

/-- C5 (amended): with every plan partition done, coherent buffers with
unique keys, and each queue sorted by `(ts_ms, partition, offset)`, the
merge-oldest batch is emitted in non-decreasing key order: adjacent records
satisfy `ts1 < ts2`, or have equal `ts_ms` and are ordered by
`(partition, offset)`. -/
theorem C5_merge_batch_sorted
    (env : ReadEnv) (ends : List (Int × Int)) (parts : List Int) (limit : Nat)
    (st : RState)
    (hdone : allDone parts st.done = true)
    (hc : Coh st.buffers)
    (hnd : (st.buffers.map Prod.fst).Nodup)
    (hsorted : ∀ e ∈ st.buffers, List.Pairwise KeyLe (e.2.map entryKey)) :
    List.Chain' KeyLe (outKeys (consumeMergeOldest env ends parts limit [] st).1) := by
  unfold consumeMergeOldest
  dsimp only
  rw [fillHeadsLoop_nil_allDone env ends parts st hdone]
  dsimp only
  apply mergeOldestLoop_sorted _ st (seedHeads st.buffers) 0 [] hc ?_ ?_ ?_ hsorted ?_ ?_
  · intro en hen
    obtain ⟨e, he, x, xs, hx, hen_eq⟩ := seedHeads_mem hen
    subst hen_eq
    have hxp : x.2.partition = e.1 := hc e he x (by rw [hx]; exact List.mem_cons_self x xs)
    refine ⟨x, xs, ?_, ?_⟩
    · show st.buffers.lookup e.1 = some (x :: xs)
      rw [← hx]
      exact lookup_eq_of_mem_nodup hnd (by rw [Prod.mk.eta]; exact he)
    · show ((x.1, e.1, x.2.offset) : HKey) = entryKey x
      unfold entryKey
      rw [hxp]
  · intro k x xs hlk
    have hmem : (k, x :: xs) ∈ st.buffers := by
      have hdec := List.lookup_eq_some_iff.mp hlk
      obtain ⟨l1, l2, heq, -⟩ := hdec
      rw [heq]
      simp
    exact ⟨((x.1, k, x.2.offset), k), seedHeads_complete hmem rfl, rfl⟩
  · exact List.Nodup.sublist (seedHeads_snd_sublist st.buffers) hnd
  · intro en hen κ hκ
    simp [outKeys] at hκ
  · show List.Chain' KeyLe (outKeys [])
    simp [outKeys]

/-- A partition-1 record at offset 0 with timestamp 100. -/
def rC5a : RawRecord :=
  { partition := 1, offset := 0, key := none, payload := none
    timestamp := .createTime 100 }

/-- A partition-1 record at offset 1 with the smaller timestamp 50. -/
def rC5b : RawRecord :=
  { partition := 1, offset := 1, key := none, payload := none
    timestamp := .createTime 50 }

/-- A partition-0 record at offset 0 with timestamp 150. -/
def rC5c : RawRecord :=
  { partition := 0, offset := 0, key := none, payload := none
    timestamp := .createTime 150 }

/-- C5 counterexample: in merge-oldest, partition 1 delivers timestamps
100 then 50 and partition 0 delivers 150; the batch comes out with
`ts_ms` sequence 100, 50, 150 — the adjacent pair (100, 50) violates the
claimed ordering, and 50 is not the missing-timestamp sentinel. -/
theorem C5_counterexample :
    ((consumeMergeOldest cEnv [(0, 5), (1, 5)] [0, 1] 10
        [.msg rC5a, .msg rC5b, .msg rC5c] { done := [], buffers := [] }).1.map
      (fun x => (x.1, x.2.partition, x.2.offset)))
      = [(100, 1, 0), (50, 1, 1), (150, 0, 0)]
      ∧ ¬ ((100 : Int) ≤ 50 ∨ (50 : Int) = i64Max) := by
  exact ⟨rfl, by decide⟩

/-- Coherent buffers with key-sorted queues for the C5 witness. -/
def c5Buffers : Buffers :=
  [(0, [(5, { id := "0-0", partition := 0, key := "", offset := 0, message := ""
              timestamp := "5", decodingError := none }),
        (10, { id := "0-1", partition := 0, key := "", offset := 1, message := ""
               timestamp := "10", decodingError := none })]),
   (1, [(7, { id := "1-0", partition := 1, key := "", offset := 0, message := ""
              timestamp := "7", decodingError := none })])]

/-- C5 witness: the amended theorem applied to a concrete two-partition
sorted buffered state. -/
theorem C5_merge_batch_sorted_witness :
    List.Chain' KeyLe (outKeys (consumeMergeOldest cEnv [(0, 5), (1, 5)] [0, 1] 10 []
      { done := [0, 1], buffers := c5Buffers }).1) :=
  C5_merge_batch_sorted cEnv [(0, 5), (1, 5)] [0, 1] 10
    { done := [0, 1], buffers := c5Buffers } (by decide)
    (by unfold Coh c5Buffers; decide) (by unfold c5Buffers; decide)
    (by unfold c5Buffers; decide)
